import Mathlib

/-!
Verification of the xtf8 transcoder (xtf8.c, utf8.h) and of the JSON string
escaper of the command-line driver.

Shallow embedding conventions:
* Byte buffers are `List Nat`; machine bytes are naturals below 256.
* The C functions take a nullable destination: a sizing pass (dst = NULL)
  that only accumulates the counter `sz`, and a writing pass that also
  stores bytes and finally asserts `dst + sz == d`.  Both passes execute
  the same control flow (the destination is consulted only to guard
  stores), so each function is embedded once, returning the pair
  `(sz, written bytes)`; the abort return `(uintptr_t)-1` becomes
  `Except.error` carrying the bytes written before the abort.
* The while-loop of each C function is embedded with an explicit fuel
  argument so that every definition is structurally recursive and
  evaluable in the kernel.  `2 * len + 1` units of fuel always suffice
  (the cursor `s` advances every iteration except immediately after a
  rewinding reject, which happens at most once per position); the
  top-level wrappers pass exactly that much.
* `uint32_t` arithmetic is `Nat` with an explicit reduction mod 2^32
  where a C expression could overflow (the codepoint accumulator shift).
-/

set_option maxRecDepth 100000

/-- The class/transition table of Hohrmann's UTF-8 DFA (`utf8d` in utf8.h):
256 byte-class entries followed by 9 rows of 12 state transitions. -/
def utf8d : List Nat := [
  -- byte classes, bytes 0x00..0xFF
  0,0,0,0,0,0,0,0,0,0,0,0,0,0,0,0,  0,0,0,0,0,0,0,0,0,0,0,0,0,0,0,0,
  0,0,0,0,0,0,0,0,0,0,0,0,0,0,0,0,  0,0,0,0,0,0,0,0,0,0,0,0,0,0,0,0,
  0,0,0,0,0,0,0,0,0,0,0,0,0,0,0,0,  0,0,0,0,0,0,0,0,0,0,0,0,0,0,0,0,
  0,0,0,0,0,0,0,0,0,0,0,0,0,0,0,0,  0,0,0,0,0,0,0,0,0,0,0,0,0,0,0,0,
  1,1,1,1,1,1,1,1,1,1,1,1,1,1,1,1,  9,9,9,9,9,9,9,9,9,9,9,9,9,9,9,9,
  7,7,7,7,7,7,7,7,7,7,7,7,7,7,7,7,  7,7,7,7,7,7,7,7,7,7,7,7,7,7,7,7,
  8,8,2,2,2,2,2,2,2,2,2,2,2,2,2,2,  2,2,2,2,2,2,2,2,2,2,2,2,2,2,2,2,
  10,3,3,3,3,3,3,3,3,3,3,3,3,4,3,3, 11,6,6,6,5,8,8,8,8,8,8,8,8,8,8,8,
  -- transition table, states 0,12,24,36,48,60,72,84,96 (rows of 12)
  0,12,24,36,60,96,84,12,12,12,48,72, 12,12,12,12,12,12,12,12,12,12,12,12,
  12,0,12,12,12,12,12,0,12,0,12,12, 12,24,12,12,12,12,12,24,12,24,12,12,
  12,12,12,12,12,12,12,24,12,12,12,12, 12,24,12,12,12,12,12,12,12,24,12,12,
  12,12,12,12,12,12,12,36,12,36,12,12, 12,36,12,12,12,12,12,36,12,36,12,12,
  12,36,12,12,12,12,12,12,12,12,12,12 ]

/-- Table lookup (C array indexing). -/
def utf8dAt (i : Nat) : Nat := utf8d.getD i 0

/-- One step of the UTF-8 scanner (`utf8_decode` in utf8.h).  Takes the
current state and codepoint accumulator and the next byte, returns the
new `(state, codepoint)` pair; the C function returns the new state and
updates both through pointers.  `UTF8_ACCEPT = 0`, `UTF8_REJECT = 12`.
The continuation-byte branch `(byte & 0x3fu) | (*codep << 6)` is uint32
arithmetic, hence the reduction mod 2^32 on the shift. -/
def utf8_decode (state codep byte : Nat) : Nat × Nat :=
  (utf8dAt (256 + state + utf8dAt byte),
   if state ≠ 0 then (byte &&& 0x3f) ||| ((codep <<< 6) % 4294967296)
   else (0xff >>> utf8dAt byte) &&& byte)

/-- `is_utf8` of xtf8.c: run the scanner over the whole buffer from
`UTF8_ACCEPT` and test that the final state is `UTF8_ACCEPT`.
(The C local `codepoint` starts uninitialized and is never read before
being written, since the initial state is ACCEPT; we use 0.) -/
def is_utf8 (data : List Nat) : Bool :=
  (data.foldl (fun sc b => utf8_decode sc.1 sc.2 b) (0, 0)).1 = 0

/-- The 3-byte UTF-8 serialization of a codepoint, exactly as the three
stores `(cp >> 12 & 0x0F) | 0xE0`, `(cp >> 6 & 0x3F) | 0x80`,
`(cp & 0x3F) | 0x80` that appear (three times) in xtf8.c. -/
def utf8enc3 (cp : Nat) : List Nat :=
  [((cp >>> 12) &&& 0x0F) ||| 0xE0,
   ((cp >>> 6) &&& 0x3F) ||| 0x80,
   (cp &&& 0x3F) ||| 0x80]

/-- PUA re-encoding of one invalid input byte in `xtf8_encode`:
the 3-byte UTF-8 form of `0xEF80 | (byte & 0x7F)`. -/
def pua3 (b : Nat) : List Nat := utf8enc3 (0xEF80 ||| (b &&& 0x7F))

/-- The byte recovered from a PUA codepoint in `xtf8_decode`:
`v = (codepoint & 0x7F) | 0x80` (xtf8.c, decode ACCEPT branch). -/
def xtf8_decode_byte (cp : Nat) : Nat := (cp &&& 0x7F) ||| 0x80

/-- The contiguous input region `[a, b)` as a byte list (the C code walks
it with the pointers `pos`..`s`). -/
def region (l : List Nat) (a b : Nat) : List Nat := (l.drop a).take (b - a)

/-- Loop of `xtf8_encode`.  Arguments mirror the C locals: cursor `s`,
pending-region start `pos`, previous/current scanner state
`s_prev`/`s_cur`, codepoint accumulator `codep`, output size `sz` and the
bytes written so far `out`.  Error policy `1 = XTF8_ERR_ABORT`, otherwise
`XTF8_ERR_REPLACE`.  In the REJECT branch the C code rewinds the cursor
(`s--`) when `s_prev != UTF8_ACCEPT`; in any run from the initial
configuration `s_prev ≠ 0` implies `s ≥ 1`, so `(s - 1) + 1` is written
as `s` in the rewinding arm.  The C write pass also scribbles
`codepoint = 0xEF80 | ...` inside the REJECT store loop; that store is
dead (the next scanner step starts from ACCEPT and overwrites the
accumulator), and the sizing pass leaves `codepoint` at the scanner's
value, which is what the embedding keeps. -/
def encodeLoop : Nat → List Nat → Nat → Nat → Nat → Nat → Nat → Nat → Nat → List Nat →
    Except (List Nat) (Nat × List Nat)
  | 0, _, _, _, _, _, _, _, sz, out => .ok (sz, out)
  | fuel+1, l, error, s, pos, s_prev, s_cur, codep, sz, out =>
    if s < l.length then
      match utf8_decode s_cur codep (l.getD s 0) with
      | (st, cp) =>
        if st = 0 then
          -- UTF8_ACCEPT
          if 0xEF80 ≤ cp ∧ cp ≤ 0xEFFF then
            -- collision with the reserved range
            if error = 1 then .error out
            else
              encodeLoop fuel l error (s+1) (s+1) 0 0 0xFFFD
                (sz + 3) (out ++ utf8enc3 0xFFFD)
          else
            -- valid UTF-8 sequence, copy bytes pos..s
            encodeLoop fuel l error (s+1) (s+1) 0 0 cp
              (sz + (s + 1 - pos)) (out ++ region l pos (s+1))
        else if st = 12 then
          -- UTF8_REJECT: re-encode the pending bytes into the PUA
          if s_prev ≠ 0 then
            -- rewind: retry the current byte as the start of a sequence
            encodeLoop fuel l error s s 0 0 cp
              (sz + 3 * (region l pos s).length) (out ++ (region l pos s).flatMap pua3)
          else
            encodeLoop fuel l error (s+1) (s+1) 0 0 cp
              (sz + 3 * (region l pos (s+1)).length) (out ++ (region l pos (s+1)).flatMap pua3)
        else
          -- more bytes to read
          encodeLoop fuel l error (s+1) pos st st cp sz out
    else .ok (sz, out)

/-- `xtf8_encode` of xtf8.c (both passes at once, see the header comment). -/
def xtf8_encode (src : List Nat) (error : Nat) : Except (List Nat) (Nat × List Nat) :=
  encodeLoop (2 * src.length + 1) src error 0 0 0 0 0 0 []

/-- Loop of `xtf8_decode`, mirroring `encodeLoop`.  On ACCEPT inside the
PUA range it emits the single byte `(cp & 0x7F) | 0x80`; on REJECT it
aborts under `XTF8_ERR_ABORT`, otherwise rewinds like encode and emits
one replacement character for the whole pending region. -/
def decodeLoop : Nat → List Nat → Nat → Nat → Nat → Nat → Nat → Nat → Nat → List Nat →
    Except (List Nat) (Nat × List Nat)
  | 0, _, _, _, _, _, _, _, sz, out => .ok (sz, out)
  | fuel+1, l, error, s, pos, s_prev, s_cur, codep, sz, out =>
    if s < l.length then
      match utf8_decode s_cur codep (l.getD s 0) with
      | (st, cp) =>
        if st = 0 then
          -- UTF8_ACCEPT
          if 0xEF80 ≤ cp ∧ cp ≤ 0xEFFF then
            -- an encoded value: decode it to a raw byte
            decodeLoop fuel l error (s+1) (s+1) 0 0 cp
              (sz + 1) (out ++ [xtf8_decode_byte cp])
          else
            decodeLoop fuel l error (s+1) (s+1) 0 0 cp
              (sz + (s + 1 - pos)) (out ++ region l pos (s+1))
        else if st = 12 then
          -- UTF8_REJECT: genuinely malformed input
          if error = 1 then .error out
          else if s_prev ≠ 0 then
            decodeLoop fuel l error s s 0 0 0xFFFD
              (sz + 3) (out ++ utf8enc3 0xFFFD)
          else
            decodeLoop fuel l error (s+1) (s+1) 0 0 0xFFFD
              (sz + 3) (out ++ utf8enc3 0xFFFD)
        else
          decodeLoop fuel l error (s+1) pos st st cp sz out
    else .ok (sz, out)

/-- `xtf8_decode` of xtf8.c (both passes at once). -/
def xtf8_decode (src : List Nat) (error : Nat) : Except (List Nat) (Nat × List Nat) :=
  decodeLoop (2 * src.length + 1) src error 0 0 0 0 0 0 []

/-! ### The JSON string escaper of the command-line driver -/

/-- The hex rendering of the low nibble in the `\u00XX` arm of
`json_escape`: digits, then uppercase letters. -/
def hexNibble (x : Nat) : Nat := if x < 10 then 0x30 + x else 0x41 + x - 10

/-- `json_escape` of the driver (the writing pass; the sizing pass counts
the same bytes).  Control bytes become a named two-character escape or
`\u00XX`; backslash and double quote gain a leading backslash; all other
bytes pass through. -/
def json_escape : List Nat → List Nat
  | [] => []
  | ch :: rest =>
    if ch ≤ 0x1F then
      0x5C ::
        (if ch = 0x0A then [0x6E]        -- \n
         else if ch = 0x0D then [0x72]   -- \r
         else if ch = 0x09 then [0x74]   -- \t
         else if ch = 0x08 then [0x62]   -- \b
         else if ch = 0x0C then [0x66]   -- \f
         else [0x75, 0x30, 0x30, 0x30 + (ch >>> 4), hexNibble (ch &&& 0xF)])
      ++ json_escape rest
    else if ch = 0x5C ∨ ch = 0x22 then 0x5C :: ch :: json_escape rest
    else ch :: json_escape rest

/-- Value of one hex digit in a `\u00XX` escape (`json_unescape` accepts
digits and uppercase letters only). -/
def hexVal (ch : Nat) : Option Nat :=
  if 0x30 ≤ ch ∧ ch ≤ 0x39 then some (ch - 0x30)
  else if 0x41 ≤ ch ∧ ch ≤ 0x46 then some (ch - 0x41 + 10)
  else none

/-- `json_unescape` of the driver.  The boolean argument is the C
`escape` flag (true when the previous byte was an unconsumed backslash).
`none` models the `JSON_ERR_UNESCAPE` return.  In the `\u00XX` arm the C
code rejects when `s + 5 >= end` with `s` at the letter `u`, i.e. it
demands five further bytes — the four hex digits plus one byte after
them — before parsing; the five-element pattern below reproduces that
bound, including its behaviour on an escape that ends exactly at the end
of the input. -/
def json_unescape : Bool → List Nat → Option (List Nat)
  | true, [] => none                      -- incomplete escape sequence
  | false, [] => some []
  | true, ch :: rest =>
    if ch = 0x5C then (fun t => 0x5C :: t) <$> json_unescape false rest
    else if ch = 0x22 then (fun t => 0x22 :: t) <$> json_unescape false rest
    else if ch = 0x6E then (fun t => 0x0A :: t) <$> json_unescape false rest
    else if ch = 0x72 then (fun t => 0x0D :: t) <$> json_unescape false rest
    else if ch = 0x74 then (fun t => 0x09 :: t) <$> json_unescape false rest
    else if ch = 0x62 then (fun t => 0x08 :: t) <$> json_unescape false rest
    else if ch = 0x66 then (fun t => 0x0C :: t) <$> json_unescape false rest
    else if ch = 0x75 then
      match rest with
      | x1 :: x2 :: x3 :: x4 :: x5 :: rest2 =>
        match hexVal x1, hexVal x2, hexVal x3, hexVal x4 with
        | some a, some b, some c, some d =>
          if (((a <<< 4 ||| b) <<< 4 ||| c) <<< 4 ||| d) > 0x1F then none
          else (fun t => (((a <<< 4 ||| b) <<< 4 ||| c) <<< 4 ||| d) :: t) <$>
            json_unescape false (x5 :: rest2)
        | _, _, _, _ => none
      | _ => none                         -- truncated \u00XX sequence
    else none                             -- invalid escape sequence
  | false, ch :: rest =>
    if ch = 0x5C then json_unescape true rest
    else (fun t => ch :: t) <$> json_unescape false rest

/-! ### Spec-side decomposition of the transcoder loops

Both loops alternate between "fresh" configurations (`pos = s`, scanner
at ACCEPT) and runs of "more bytes needed" steps.  `scanStep` performs
one such run: starting from scanner state `state`/accumulator `codep`
with already-consumed bytes `acc`, it consumes input until the scanner
reports ACCEPT or REJECT, reproducing the cursor rewind of the loops on
a REJECT after at least one consumed byte. -/

/-- Result of scanning one chunk: a completed codepoint with the bytes
that formed it and the remaining input; a rejected pending region and
the remaining input (the rejecting byte is pushed back when the scanner
was mid-sequence); or end of input mid-sequence. -/
inductive ScanR where
  | accepted : List Nat → Nat → List Nat → ScanR
  | rejected : List Nat → List Nat → ScanR
  | incomplete : List Nat → ScanR
deriving DecidableEq

/-- One resolution run of the scanner (see section header). -/
def scanStep (state codep : Nat) (acc : List Nat) : List Nat → ScanR
  | [] => .incomplete acc
  | b :: rest =>
    match utf8_decode state codep b with
    | (st, cp) =>
      if st = 0 then .accepted (acc ++ [b]) cp rest
      else if st = 12 then
        if state = 0 then .rejected (acc ++ [b]) rest
        else .rejected acc (b :: rest)
      else scanStep st cp (acc ++ [b]) rest

/-- `acceptsAt state codep cp chunk`: running the scanner over `chunk`
from `(state, codep)` stays strictly between ACCEPT and REJECT and
reaches ACCEPT with codepoint `cp` exactly on the last byte. -/
def acceptsAt (state codep cp : Nat) : List Nat → Bool
  | [] => false
  | b :: rest =>
    match utf8_decode state codep b with
    | (st, c) =>
      match rest with
      | [] => decide (st = 0 ∧ c = cp)
      | _ :: _ => decide (st ≠ 0 ∧ st ≠ 12) && acceptsAt st c cp rest

/-- Prepend `n` counted bytes `pre` to a loop result (the effect of one
resolved chunk on the `(sz, out)` accumulators). -/
def exceptAcc (n : Nat) (pre : List Nat) :
    Except (List Nat) (Nat × List Nat) → Except (List Nat) (Nat × List Nat)
  | .ok (sz, out) => .ok (n + sz, pre ++ out)
  | .error out => .error (pre ++ out)

/-- Chunk-level restatement of `xtf8_encode` (fuelled; one unit of fuel
per chunk, `l.length` always suffices). -/
def encodeChunksF : Nat → Nat → List Nat → Except (List Nat) (Nat × List Nat)
  | 0, _, _ => .ok (0, [])
  | _, _, [] => .ok (0, [])
  | fuel+1, error, a :: l =>
    match scanStep 0 0 [] (a :: l) with
    | .incomplete _ => .ok (0, [])
    | .accepted seq cp rest =>
      if 0xEF80 ≤ cp ∧ cp ≤ 0xEFFF then
        if error = 1 then .error []
        else exceptAcc 3 (utf8enc3 0xFFFD) (encodeChunksF fuel error rest)
      else exceptAcc seq.length seq (encodeChunksF fuel error rest)
    | .rejected pend rest =>
      exceptAcc (3 * pend.length) (pend.flatMap pua3) (encodeChunksF fuel error rest)

/-- Chunk-level form of `xtf8_encode`. -/
def encodeChunks (error : Nat) (l : List Nat) : Except (List Nat) (Nat × List Nat) :=
  encodeChunksF l.length error l

/-- Chunk-level restatement of `xtf8_decode` (fuelled like
`encodeChunksF`). -/
def decodeChunksF : Nat → Nat → List Nat → Except (List Nat) (Nat × List Nat)
  | 0, _, _ => .ok (0, [])
  | _, _, [] => .ok (0, [])
  | fuel+1, error, a :: l =>
    match scanStep 0 0 [] (a :: l) with
    | .incomplete _ => .ok (0, [])
    | .accepted seq cp rest =>
      if 0xEF80 ≤ cp ∧ cp ≤ 0xEFFF then
        exceptAcc 1 [xtf8_decode_byte cp] (decodeChunksF fuel error rest)
      else exceptAcc seq.length seq (decodeChunksF fuel error rest)
    | .rejected _ rest =>
      if error = 1 then .error []
      else exceptAcc 3 (utf8enc3 0xFFFD) (decodeChunksF fuel error rest)

/-- Chunk-level form of `xtf8_decode`. -/
def decodeChunks (error : Nat) (l : List Nat) : Except (List Nat) (Nat × List Nat) :=
  decodeChunksF l.length error l

/-- Chunk classification of an arbitrary mid-sequence encode
configuration: the already-consumed bytes `acc` and scanner registers
are resolved by `scanStep` and the remainder is handled by
`encodeChunks`.  Used to state the loop/chunk correspondence. -/
def encodeChunksMid (error state codep : Nat) (acc l : List Nat) :
    Except (List Nat) (Nat × List Nat) :=
  match scanStep state codep acc l with
  | .incomplete _ => .ok (0, [])
  | .accepted seq cp rest =>
    if 0xEF80 ≤ cp ∧ cp ≤ 0xEFFF then
      if error = 1 then .error []
      else exceptAcc 3 (utf8enc3 0xFFFD) (encodeChunks error rest)
    else exceptAcc seq.length seq (encodeChunks error rest)
  | .rejected pend rest =>
    exceptAcc (3 * pend.length) (pend.flatMap pua3) (encodeChunks error rest)

/-- Mid-sequence counterpart of `decodeChunks`, see `encodeChunksMid`. -/
def decodeChunksMid (error state codep : Nat) (acc l : List Nat) :
    Except (List Nat) (Nat × List Nat) :=
  match scanStep state codep acc l with
  | .incomplete _ => .ok (0, [])
  | .accepted seq cp rest =>
    if 0xEF80 ≤ cp ∧ cp ≤ 0xEFFF then
      exceptAcc 1 [xtf8_decode_byte cp] (decodeChunks error rest)
    else exceptAcc seq.length seq (decodeChunks error rest)
  | .rejected _ rest =>
    if error = 1 then .error []
    else exceptAcc 3 (utf8enc3 0xFFFD) (decodeChunks error rest)

/-- `true` when no chunk of the scan decomposition of `l` is a completed
codepoint in the reserved range U+EF80..U+EFFF — the hypothesis of the
round-trip property ("contains no byte sequence that decodes to a
codepoint in the reserved range"). -/
def noPUAChunksF : Nat → List Nat → Bool
  | 0, _ => true
  | _, [] => true
  | fuel+1, a :: l =>
    match scanStep 0 0 [] (a :: l) with
    | .accepted _ cp rest => !decide (0xEF80 ≤ cp ∧ cp ≤ 0xEFFF) && noPUAChunksF fuel rest
    | .rejected _ rest => noPUAChunksF fuel rest
    | .incomplete _ => true

/-- See `noPUAChunksF`. -/
def noPUAChunks (l : List Nat) : Bool := noPUAChunksF l.length l

/-- `true` when the scan decomposition of `l` does not end in an
unfinished multi-byte sequence (whose bytes `xtf8_encode` silently
drops). -/
def noTrailTruncF : Nat → List Nat → Bool
  | 0, _ => true
  | _, [] => true
  | fuel+1, a :: l =>
    match scanStep 0 0 [] (a :: l) with
    | .accepted _ _ rest => noTrailTruncF fuel rest
    | .rejected _ rest => noTrailTruncF fuel rest
    | .incomplete _ => false

/-- See `noTrailTruncF`. -/
def noTrailTrunc (l : List Nat) : Bool := noTrailTruncF l.length l

/-- `validScan state codep l`: scanning `l` never reaches REJECT and the
final state is ACCEPT (the re-validation property of encode output). -/
def validScan (state codep : Nat) : List Nat → Bool
  | [] => decide (state = 0)
  | b :: rest =>
    match utf8_decode state codep b with
    | (st, c) => !decide (st = 12) && validScan st c rest

/-- Replay of `encodeLoop`'s control flow that checks, in the REJECT
branch, the assertion `assert(*pos >= 0x80)` the C code applies to every
byte of the pending region it is about to re-encode; returns `false` iff
some execution of that assertion would fail. -/
def encodeAssertsF : Nat → List Nat → Nat → Nat → Nat → Nat → Nat → Bool
  | 0, _, _, _, _, _, _ => true
  | fuel+1, l, s, pos, s_prev, s_cur, codep =>
    if s < l.length then
      match utf8_decode s_cur codep (l.getD s 0) with
      | (st, cp) =>
        if st = 0 then encodeAssertsF fuel l (s+1) (s+1) 0 0 cp
        else if st = 12 then
          if s_prev ≠ 0 then
            (region l pos s).all (fun x => decide (0x80 ≤ x)) &&
              encodeAssertsF fuel l s s 0 0 cp
          else
            (region l pos (s+1)).all (fun x => decide (0x80 ≤ x)) &&
              encodeAssertsF fuel l (s+1) (s+1) 0 0 cp
        else encodeAssertsF fuel l (s+1) pos st st cp
    else true

/-- All assertions of one full `xtf8_encode` run hold (the encode ACCEPT
branch does not depend on the error policy for control flow until an
abort, which only truncates the run, so the policy is irrelevant here). -/
def encodeAsserts (l : List Nat) : Bool :=
  encodeAssertsF (2 * l.length + 1) l 0 0 0 0 0

/-- The scanner states that actually occur in the transition table. -/
def usedStates : List Nat := [0, 24, 36, 48, 60, 72, 84, 96]

/-- Decidable equality of transcoder results, for concrete evaluation. -/
instance : DecidableEq (Except (List Nat) (Nat × List Nat)) :=
  fun a b =>
    match a, b with
    | .ok x, .ok y =>
      if h : x = y then isTrue (by rw [h])
      else isFalse (by intro hc; cases hc; exact h rfl)
    | .error x, .error y =>
      if h : x = y then isTrue (by rw [h])
      else isFalse (by intro hc; cases hc; exact h rfl)
    | .ok _, .error _ => isFalse (by intro hc; cases hc)
    | .error _, .ok _ => isFalse (by intro hc; cases hc)

/-! ### Basic lemmas -/

theorem exceptAcc_zero (x : Except (List Nat) (Nat × List Nat)) : exceptAcc 0 [] x = x := by
  cases x with
  | ok v => cases v; simp [exceptAcc]
  | error e => simp [exceptAcc]

theorem exceptAcc_comp (a : Nat) (o : List Nat) (b : Nat) (p : List Nat)
    (x : Except (List Nat) (Nat × List Nat)) :
    exceptAcc a o (exceptAcc b p x) = exceptAcc (a + b) (o ++ p) x := by
  cases x with
  | ok v => cases v; simp [exceptAcc]; omega
  | error e => simp [exceptAcc]

theorem region_self (l : List Nat) (p : Nat) : region l p p = [] := by simp [region]

theorem region_extend {l : List Nat} {p s : Nat} (hps : p ≤ s) (hs : s < l.length) :
    region l p (s+1) = region l p s ++ [l.getD s 0] := by
  unfold region
  have h1 : s + 1 - p = (s - p) + 1 := by omega
  rw [h1, List.take_succ]
  congr 1
  have h2 : (l.drop p)[s - p]? = l[s]? := by
    rw [List.getElem?_drop]
    congr 1
    omega
  rw [h2, List.getElem?_eq_getElem hs]
  simp [List.getD_eq_getElem?_getD, List.getElem?_eq_getElem hs]

theorem region_length {l : List Nat} {p s : Nat} (hs : s ≤ l.length) :
    (region l p s).length = s - p := by
  simp [region]
  omega

theorem drop_cons_getD {l : List Nat} {s : Nat} (hs : s < l.length) :
    l.drop s = l.getD s 0 :: l.drop (s+1) := by
  rw [List.drop_eq_getElem_cons hs]
  simp [List.getD_eq_getElem?_getD, List.getElem?_eq_getElem hs]

theorem getD_mem {l : List Nat} {s : Nat} (hs : s < l.length) : l.getD s 0 ∈ l := by
  rw [List.getD_eq_getElem?_getD, List.getElem?_eq_getElem hs]
  exact List.getElem_mem hs

/-- The scanner step from ACCEPT ignores the codepoint accumulator. -/
theorem utf8_decode_codep_irrel (c c' b : Nat) : utf8_decode 0 c b = utf8_decode 0 c' b := by
  simp [utf8_decode]

/-- A fresh chunk scan ignores the codepoint accumulator. -/
theorem scanStep_codep_irrel (c c' : Nat) (l : List Nat) :
    scanStep 0 c [] l = scanStep 0 c' [] l := by
  cases l with
  | nil => rfl
  | cons b rest =>
    simp only [scanStep]
    rw [utf8_decode_codep_irrel c c' b]

/-! ### Chunk structure of `scanStep` -/

/-- An accepted scan extends the consumed bytes by a nonempty chunk that
the scanner accepts, and splits the input accordingly. -/
theorem scanStep_accepted {l : List Nat} {state codep : Nat} {acc seq rest : List Nat} {cp : Nat}
    (h : scanStep state codep acc l = .accepted seq cp rest) :
    ∃ chunk, chunk ≠ [] ∧ seq = acc ++ chunk ∧ l = chunk ++ rest ∧
      acceptsAt state codep cp chunk = true := by
  induction l generalizing state codep acc with
  | nil => simp [scanStep] at h
  | cons b rest0 ih =>
    rw [scanStep] at h
    rcases hu : utf8_decode state codep b with ⟨st, c⟩
    rw [hu] at h
    dsimp only at h
    by_cases hst : st = 0
    · subst hst
      simp only [if_pos rfl] at h
      obtain ⟨hseq, hcp, hrest⟩ : acc ++ [b] = seq ∧ c = cp ∧ rest0 = rest := by
        cases h; exact ⟨rfl, rfl, rfl⟩
      refine ⟨[b], by simp, hseq.symm, by simp [hrest], ?_⟩
      simp [acceptsAt, hu, hcp]
    · rw [if_neg hst] at h
      by_cases hst12 : st = 12
      · subst hst12
        rw [if_pos rfl] at h
        by_cases hs0 : state = 0 <;> simp [hs0] at h
      · rw [if_neg hst12] at h
        obtain ⟨chunk, hne, hseq, hsplit, hacc⟩ := ih h
        obtain ⟨x, xs, rfl⟩ := List.exists_cons_of_ne_nil hne
        refine ⟨b :: x :: xs, by simp, by simpa using hseq, by simp [hsplit], ?_⟩
        rw [acceptsAt, hu]
        dsimp only
        simp [hst, hst12, hacc]

/-- A rejected scan turns the consumed bytes plus a (possibly empty,
empty only when the scanner started mid-sequence) chunk into the pending
region, and splits the input accordingly. -/
theorem scanStep_rejected {l : List Nat} {state codep : Nat} {acc pend rest : List Nat}
    (h : scanStep state codep acc l = .rejected pend rest) :
    ∃ chunk, pend = acc ++ chunk ∧ l = chunk ++ rest ∧ (state = 0 → chunk ≠ []) := by
  induction l generalizing state codep acc with
  | nil => simp [scanStep] at h
  | cons b rest0 ih =>
    rw [scanStep] at h
    rcases hu : utf8_decode state codep b with ⟨st, c⟩
    rw [hu] at h
    dsimp only at h
    by_cases hst : st = 0
    · simp [hst] at h
    · rw [if_neg hst] at h
      by_cases hst12 : st = 12
      · subst hst12
        rw [if_pos rfl] at h
        by_cases hs0 : state = 0
        · rw [if_pos hs0] at h
          obtain ⟨hp, hr⟩ : acc ++ [b] = pend ∧ rest0 = rest := by
            cases h; exact ⟨rfl, rfl⟩
          exact ⟨[b], hp.symm, by simp [hr], fun _ => by simp⟩
        · rw [if_neg hs0] at h
          obtain ⟨hp, hr⟩ : acc = pend ∧ b :: rest0 = rest := by
            cases h; exact ⟨rfl, rfl⟩
          exact ⟨[], by simp [hp], by simp [hr], fun h0 => absurd h0 hs0⟩
      · rw [if_neg hst12] at h
        obtain ⟨chunk, hp, hsplit, _⟩ := ih h
        exact ⟨b :: chunk, by simpa using hp, by simp [hsplit], fun _ => by simp⟩

/-- A chunk the scanner accepts is scanned to exactly that chunk,
whatever follows it. -/
theorem scanStep_of_acceptsAt {chunk : List Nat} {state codep cp : Nat}
    (h : acceptsAt state codep cp chunk = true) (acc rest : List Nat) :
    scanStep state codep acc (chunk ++ rest) = .accepted (acc ++ chunk) cp rest := by
  induction chunk generalizing state codep acc with
  | nil => simp [acceptsAt] at h
  | cons b tail ih =>
    rw [acceptsAt] at h
    rcases hu : utf8_decode state codep b with ⟨st, c⟩
    rw [hu] at h
    cases tail with
    | nil =>
      simp only [decide_eq_true_eq] at h
      obtain ⟨hst, hc⟩ := h
      simp [scanStep, hu, hst, hc]
    | cons x xs =>
      simp only [Bool.and_eq_true, decide_eq_true_eq] at h
      obtain ⟨⟨hst, hst12⟩, hacc⟩ := h
      rw [List.cons_append, scanStep, hu]
      dsimp only
      rw [if_neg hst, if_neg hst12]
      simpa using ih hacc (acc ++ [b])

/-! ### Finite facts about the DFA table -/

/-- The state component of a scanner step is a plain table lookup. -/
theorem utf8_decode_fst (state codep b : Nat) :
    (utf8_decode state codep b).1 = utf8dAt (256 + state + utf8dAt b) := rfl

/-- From any used state, a step lands in REJECT or in a used state. -/
theorem dfa_closure : ∀ st ∈ usedStates, ∀ b < 256,
    utf8dAt (256 + st + utf8dAt b) = 12 ∨ utf8dAt (256 + st + utf8dAt b) ∈ usedStates := by decide

/-- A byte whose step neither accepts nor rejects is non-ASCII. -/
theorem dfa_consumed_high : ∀ st ∈ usedStates, ∀ b < 256,
    utf8dAt (256 + st + utf8dAt b) = 0 ∨ utf8dAt (256 + st + utf8dAt b) = 12 ∨ 0x80 ≤ b := by
  decide

/-- A byte rejected from ACCEPT is non-ASCII. -/
theorem dfa_reject_high : ∀ b < 256, 0x80 ≤ b ∨ utf8dAt (256 + utf8dAt b) ≠ 12 := by decide

/-- Every byte of a rejected pending region is a non-ASCII byte, provided
the already-consumed bytes are and the scanner state is a table state. -/
theorem scanStep_rejected_bytes {l : List Nat} {state codep : Nat} {acc pend rest : List Nat}
    (hstate : state ∈ usedStates)
    (hacc : ∀ b ∈ acc, 0x80 ≤ b ∧ b < 256)
    (hl : ∀ b ∈ l, b < 256)
    (h : scanStep state codep acc l = .rejected pend rest) :
    ∀ b ∈ pend, 0x80 ≤ b ∧ b < 256 := by
  induction l generalizing state codep acc with
  | nil => simp [scanStep] at h
  | cons b rest0 ih =>
    rw [scanStep] at h
    rcases hu : utf8_decode state codep b with ⟨st, c⟩
    rw [hu] at h
    dsimp only at h
    have hb : b < 256 := hl b (by simp)
    have hst_eq : st = utf8dAt (256 + state + utf8dAt b) := by
      rw [← utf8_decode_fst state codep b, hu]
    by_cases hst : st = 0
    · simp [hst] at h
    · rw [if_neg hst] at h
      by_cases hst12 : st = 12
      · subst hst12
        rw [if_pos rfl] at h
        by_cases hs0 : state = 0
        · rw [if_pos hs0] at h
          obtain ⟨hp, _⟩ : acc ++ [b] = pend ∧ rest0 = rest := by
            cases h; exact ⟨rfl, rfl⟩
          subst hp
          intro x hx
          rcases List.mem_append.mp hx with hx | hx
          · exact hacc x hx
          · have hxb : x = b := by simpa using hx
            subst hxb
            rcases dfa_reject_high x hb with hhi | hne
            · exact ⟨hhi, hb⟩
            · refine absurd ?_ hne
              rw [hs0] at hst_eq
              simpa using hst_eq.symm
        · rw [if_neg hs0] at h
          obtain ⟨hp, _⟩ : acc = pend ∧ b :: rest0 = rest := by
            cases h; exact ⟨rfl, rfl⟩
          subst hp
          exact hacc
      · rw [if_neg hst12] at h
        have hstused : st ∈ usedStates := by
          rcases dfa_closure state hstate b hb with h12 | hused
          · exact absurd (hst_eq.trans h12) hst12
          · rw [hst_eq]; exact hused
        have hbhi : 0x80 ≤ b := by
          rcases dfa_consumed_high state hstate b hb with h0 | h12 | hhi
          · exact absurd (by rw [hst_eq, h0]) hst
          · exact absurd (by rw [hst_eq, h12]) hst12
          · exact hhi
        refine ih hstused ?_ (fun x hx => hl x (by simp [hx])) h
        intro x hx
        rcases List.mem_append.mp hx with hx | hx
        · exact hacc x hx
        · have hxb : x = b := by simpa using hx
          subst hxb
          exact ⟨hbhi, hb⟩

/-- For every non-ASCII byte, its PUA re-encoding is a chunk the scanner
accepts with exactly the intended reserved codepoint, and decoding that
codepoint recovers the byte. -/
theorem pua_b_facts : ∀ b < 256, 0x80 ≤ b →
    acceptsAt 0 0 (0xEF80 ||| (b &&& 0x7F)) (pua3 b) = true ∧
    xtf8_decode_byte (0xEF80 ||| (b &&& 0x7F)) = b ∧
    0xEF80 ≤ 0xEF80 ||| (b &&& 0x7F) ∧ 0xEF80 ||| (b &&& 0x7F) ≤ 0xEFFF := by decide

/-- The replacement character's 3-byte form is a chunk the scanner
accepts with codepoint U+FFFD, which is outside the reserved range. -/
theorem fffd_facts :
    acceptsAt 0 0 0xFFFD (utf8enc3 0xFFFD) = true ∧
    ¬(0xEF80 ≤ 0xFFFD ∧ (0xFFFD : Nat) ≤ 0xEFFF) := by decide

/-! ### Fuel irrelevance and unfolding of the chunk-level functions -/

theorem encodeChunksF_fuel (f1 : Nat) : ∀ (l : List Nat) (f2 error : Nat),
    l.length ≤ f1 → l.length ≤ f2 → encodeChunksF f1 error l = encodeChunksF f2 error l := by
  induction f1 with
  | zero =>
    intro l f2 error h1 _
    have : l = [] := List.eq_nil_of_length_eq_zero (by omega)
    subst this
    cases f2 <;> simp [encodeChunksF]
  | succ f ih =>
    intro l f2 error h1 h2
    cases l with
    | nil => cases f2 <;> simp [encodeChunksF]
    | cons a l0 =>
      cases f2 with
      | zero => simp at h2
      | succ g =>
        simp only [List.length_cons] at h1 h2
        rw [encodeChunksF, encodeChunksF]
        cases hscan : scanStep 0 0 [] (a :: l0) with
        | accepted seq cp rest =>
          obtain ⟨chunk, hne, _, hsplit, _⟩ := scanStep_accepted hscan
          have hr : rest.length ≤ l0.length := by
            have := congrArg List.length hsplit
            simp at this
            cases chunk with
            | nil => exact absurd rfl hne
            | cons y ys => simp at this; omega
          dsimp only
          rw [ih rest g error (by omega) (by omega)]
        | rejected pend rest =>
          obtain ⟨chunk, _, hsplit, hne⟩ := scanStep_rejected hscan
          have hr : rest.length ≤ l0.length := by
            have := congrArg List.length hsplit
            simp at this
            cases chunk with
            | nil => exact absurd rfl (hne rfl)
            | cons y ys => simp at this; omega
          dsimp only
          rw [ih rest g error (by omega) (by omega)]
        | incomplete p => rfl

theorem decodeChunksF_fuel (f1 : Nat) : ∀ (l : List Nat) (f2 error : Nat),
    l.length ≤ f1 → l.length ≤ f2 → decodeChunksF f1 error l = decodeChunksF f2 error l := by
  induction f1 with
  | zero =>
    intro l f2 error h1 _
    have : l = [] := List.eq_nil_of_length_eq_zero (by omega)
    subst this
    cases f2 <;> simp [decodeChunksF]
  | succ f ih =>
    intro l f2 error h1 h2
    cases l with
    | nil => cases f2 <;> simp [decodeChunksF]
    | cons a l0 =>
      cases f2 with
      | zero => simp at h2
      | succ g =>
        simp only [List.length_cons] at h1 h2
        rw [decodeChunksF, decodeChunksF]
        cases hscan : scanStep 0 0 [] (a :: l0) with
        | accepted seq cp rest =>
          obtain ⟨chunk, hne, _, hsplit, _⟩ := scanStep_accepted hscan
          have hr : rest.length ≤ l0.length := by
            have := congrArg List.length hsplit
            simp at this
            cases chunk with
            | nil => exact absurd rfl hne
            | cons y ys => simp at this; omega
          dsimp only
          rw [ih rest g error (by omega) (by omega)]
        | rejected pend rest =>
          obtain ⟨chunk, _, hsplit, hne⟩ := scanStep_rejected hscan
          have hr : rest.length ≤ l0.length := by
            have := congrArg List.length hsplit
            simp at this
            cases chunk with
            | nil => exact absurd rfl (hne rfl)
            | cons y ys => simp at this; omega
          dsimp only
          rw [ih rest g error (by omega) (by omega)]
        | incomplete p => rfl

theorem noPUAChunksF_fuel (f1 : Nat) : ∀ (l : List Nat) (f2 : Nat),
    l.length ≤ f1 → l.length ≤ f2 → noPUAChunksF f1 l = noPUAChunksF f2 l := by
  induction f1 with
  | zero =>
    intro l f2 h1 _
    have : l = [] := List.eq_nil_of_length_eq_zero (by omega)
    subst this
    cases f2 <;> simp [noPUAChunksF]
  | succ f ih =>
    intro l f2 h1 h2
    cases l with
    | nil => cases f2 <;> simp [noPUAChunksF]
    | cons a l0 =>
      cases f2 with
      | zero => simp at h2
      | succ g =>
        simp only [List.length_cons] at h1 h2
        rw [noPUAChunksF, noPUAChunksF]
        cases hscan : scanStep 0 0 [] (a :: l0) with
        | accepted seq cp rest =>
          obtain ⟨chunk, hne, _, hsplit, _⟩ := scanStep_accepted hscan
          have hr : rest.length ≤ l0.length := by
            have := congrArg List.length hsplit
            simp at this
            cases chunk with
            | nil => exact absurd rfl hne
            | cons y ys => simp at this; omega
          dsimp only
          rw [ih rest g (by omega) (by omega)]
        | rejected pend rest =>
          obtain ⟨chunk, _, hsplit, hne⟩ := scanStep_rejected hscan
          have hr : rest.length ≤ l0.length := by
            have := congrArg List.length hsplit
            simp at this
            cases chunk with
            | nil => exact absurd rfl (hne rfl)
            | cons y ys => simp at this; omega
          dsimp only
          rw [ih rest g (by omega) (by omega)]
        | incomplete p => rfl

theorem noTrailTruncF_fuel (f1 : Nat) : ∀ (l : List Nat) (f2 : Nat),
    l.length ≤ f1 → l.length ≤ f2 → noTrailTruncF f1 l = noTrailTruncF f2 l := by
  induction f1 with
  | zero =>
    intro l f2 h1 _
    have : l = [] := List.eq_nil_of_length_eq_zero (by omega)
    subst this
    cases f2 <;> simp [noTrailTruncF]
  | succ f ih =>
    intro l f2 h1 h2
    cases l with
    | nil => cases f2 <;> simp [noTrailTruncF]
    | cons a l0 =>
      cases f2 with
      | zero => simp at h2
      | succ g =>
        simp only [List.length_cons] at h1 h2
        rw [noTrailTruncF, noTrailTruncF]
        cases hscan : scanStep 0 0 [] (a :: l0) with
        | accepted seq cp rest =>
          obtain ⟨chunk, hne, _, hsplit, _⟩ := scanStep_accepted hscan
          have hr : rest.length ≤ l0.length := by
            have := congrArg List.length hsplit
            simp at this
            cases chunk with
            | nil => exact absurd rfl hne
            | cons y ys => simp at this; omega
          dsimp only
          rw [ih rest g (by omega) (by omega)]
        | rejected pend rest =>
          obtain ⟨chunk, _, hsplit, hne⟩ := scanStep_rejected hscan
          have hr : rest.length ≤ l0.length := by
            have := congrArg List.length hsplit
            simp at this
            cases chunk with
            | nil => exact absurd rfl (hne rfl)
            | cons y ys => simp at this; omega
          dsimp only
          rw [ih rest g (by omega) (by omega)]
        | incomplete p => rfl

theorem encodeChunks_nil (error : Nat) : encodeChunks error [] = .ok (0, []) := rfl

theorem encodeChunks_cons (error a : Nat) (l : List Nat) :
    encodeChunks error (a :: l) =
      match scanStep 0 0 [] (a :: l) with
      | .incomplete _ => .ok (0, [])
      | .accepted seq cp rest =>
        if 0xEF80 ≤ cp ∧ cp ≤ 0xEFFF then
          if error = 1 then .error []
          else exceptAcc 3 (utf8enc3 0xFFFD) (encodeChunks error rest)
        else exceptAcc seq.length seq (encodeChunks error rest)
      | .rejected pend rest =>
        exceptAcc (3 * pend.length) (pend.flatMap pua3) (encodeChunks error rest) := by
  show encodeChunksF (l.length + 1) error (a :: l) = _
  rw [encodeChunksF]
  cases hscan : scanStep 0 0 [] (a :: l) with
  | accepted seq cp rest =>
    obtain ⟨chunk, hne, _, hsplit, _⟩ := scanStep_accepted hscan
    have hr : rest.length ≤ l.length := by
      have := congrArg List.length hsplit
      simp at this
      cases chunk with
      | nil => exact absurd rfl hne
      | cons y ys => simp at this; omega
    dsimp only
    rw [encodeChunksF_fuel l.length rest rest.length error hr (by omega)]
    rfl
  | rejected pend rest =>
    obtain ⟨chunk, _, hsplit, hne⟩ := scanStep_rejected hscan
    have hr : rest.length ≤ l.length := by
      have := congrArg List.length hsplit
      simp at this
      cases chunk with
      | nil => exact absurd rfl (hne rfl)
      | cons y ys => simp at this; omega
    dsimp only
    rw [encodeChunksF_fuel l.length rest rest.length error hr (by omega)]
    rfl
  | incomplete p => rfl

theorem decodeChunks_nil (error : Nat) : decodeChunks error [] = .ok (0, []) := rfl

theorem decodeChunks_cons (error a : Nat) (l : List Nat) :
    decodeChunks error (a :: l) =
      match scanStep 0 0 [] (a :: l) with
      | .incomplete _ => .ok (0, [])
      | .accepted seq cp rest =>
        if 0xEF80 ≤ cp ∧ cp ≤ 0xEFFF then
          exceptAcc 1 [xtf8_decode_byte cp] (decodeChunks error rest)
        else exceptAcc seq.length seq (decodeChunks error rest)
      | .rejected _pend rest =>
        if error = 1 then .error []
        else exceptAcc 3 (utf8enc3 0xFFFD) (decodeChunks error rest) := by
  show decodeChunksF (l.length + 1) error (a :: l) = _
  rw [decodeChunksF]
  cases hscan : scanStep 0 0 [] (a :: l) with
  | accepted seq cp rest =>
    obtain ⟨chunk, hne, _, hsplit, _⟩ := scanStep_accepted hscan
    have hr : rest.length ≤ l.length := by
      have := congrArg List.length hsplit
      simp at this
      cases chunk with
      | nil => exact absurd rfl hne
      | cons y ys => simp at this; omega
    dsimp only
    rw [decodeChunksF_fuel l.length rest rest.length error hr (by omega)]
    rfl
  | rejected pend rest =>
    obtain ⟨chunk, _, hsplit, hne⟩ := scanStep_rejected hscan
    have hr : rest.length ≤ l.length := by
      have := congrArg List.length hsplit
      simp at this
      cases chunk with
      | nil => exact absurd rfl (hne rfl)
      | cons y ys => simp at this; omega
    dsimp only
    rw [decodeChunksF_fuel l.length rest rest.length error hr (by omega)]
    rfl
  | incomplete p => rfl

theorem noPUAChunks_cons (a : Nat) (l : List Nat) :
    noPUAChunks (a :: l) =
      match scanStep 0 0 [] (a :: l) with
      | .accepted _ cp rest =>
        !decide (0xEF80 ≤ cp ∧ cp ≤ 0xEFFF) && noPUAChunks rest
      | .rejected _ rest => noPUAChunks rest
      | .incomplete _ => true := by
  show noPUAChunksF (l.length + 1) (a :: l) = _
  rw [noPUAChunksF]
  cases hscan : scanStep 0 0 [] (a :: l) with
  | accepted seq cp rest =>
    obtain ⟨chunk, hne, _, hsplit, _⟩ := scanStep_accepted hscan
    have hr : rest.length ≤ l.length := by
      have := congrArg List.length hsplit
      simp at this
      cases chunk with
      | nil => exact absurd rfl hne
      | cons y ys => simp at this; omega
    dsimp only
    rw [noPUAChunksF_fuel l.length rest rest.length hr (by omega)]
    rfl
  | rejected pend rest =>
    obtain ⟨chunk, _, hsplit, hne⟩ := scanStep_rejected hscan
    have hr : rest.length ≤ l.length := by
      have := congrArg List.length hsplit
      simp at this
      cases chunk with
      | nil => exact absurd rfl (hne rfl)
      | cons y ys => simp at this; omega
    dsimp only
    rw [noPUAChunksF_fuel l.length rest rest.length hr (by omega)]
    rfl
  | incomplete p => rfl

theorem noTrailTrunc_cons (a : Nat) (l : List Nat) :
    noTrailTrunc (a :: l) =
      match scanStep 0 0 [] (a :: l) with
      | .accepted _ _ rest => noTrailTrunc rest
      | .rejected _ rest => noTrailTrunc rest
      | .incomplete _ => false := by
  show noTrailTruncF (l.length + 1) (a :: l) = _
  rw [noTrailTruncF]
  cases hscan : scanStep 0 0 [] (a :: l) with
  | accepted seq cp rest =>
    obtain ⟨chunk, hne, _, hsplit, _⟩ := scanStep_accepted hscan
    have hr : rest.length ≤ l.length := by
      have := congrArg List.length hsplit
      simp at this
      cases chunk with
      | nil => exact absurd rfl hne
      | cons y ys => simp at this; omega
    dsimp only
    rw [noTrailTruncF_fuel l.length rest rest.length hr (by omega)]
    rfl
  | rejected pend rest =>
    obtain ⟨chunk, _, hsplit, hne⟩ := scanStep_rejected hscan
    have hr : rest.length ≤ l.length := by
      have := congrArg List.length hsplit
      simp at this
      cases chunk with
      | nil => exact absurd rfl (hne rfl)
      | cons y ys => simp at this; omega
    dsimp only
    rw [noTrailTruncF_fuel l.length rest rest.length hr (by omega)]
    rfl
  | incomplete p => rfl

/-! ### The loop/chunk correspondence -/

theorem encodeChunksMid_def (error state codep : Nat) (acc l : List Nat) :
    encodeChunksMid error state codep acc l =
      match scanStep state codep acc l with
      | .incomplete _ => .ok (0, [])
      | .accepted seq cp rest =>
        if 0xEF80 ≤ cp ∧ cp ≤ 0xEFFF then
          if error = 1 then .error []
          else exceptAcc 3 (utf8enc3 0xFFFD) (encodeChunks error rest)
        else exceptAcc seq.length seq (encodeChunks error rest)
      | .rejected pend rest =>
        exceptAcc (3 * pend.length) (pend.flatMap pua3) (encodeChunks error rest) := rfl

theorem decodeChunksMid_def (error state codep : Nat) (acc l : List Nat) :
    decodeChunksMid error state codep acc l =
      match scanStep state codep acc l with
      | .incomplete _ => .ok (0, [])
      | .accepted seq cp rest =>
        if 0xEF80 ≤ cp ∧ cp ≤ 0xEFFF then
          exceptAcc 1 [xtf8_decode_byte cp] (decodeChunks error rest)
        else exceptAcc seq.length seq (decodeChunks error rest)
      | .rejected _pend rest =>
        if error = 1 then .error []
        else exceptAcc 3 (utf8enc3 0xFFFD) (decodeChunks error rest) := rfl

theorem encodeChunks_eq_scan (error : Nat) (l : List Nat) :
    encodeChunks error l =
      match scanStep 0 0 [] l with
      | .incomplete _ => .ok (0, [])
      | .accepted seq cp rest =>
        if 0xEF80 ≤ cp ∧ cp ≤ 0xEFFF then
          if error = 1 then .error []
          else exceptAcc 3 (utf8enc3 0xFFFD) (encodeChunks error rest)
        else exceptAcc seq.length seq (encodeChunks error rest)
      | .rejected pend rest =>
        exceptAcc (3 * pend.length) (pend.flatMap pua3) (encodeChunks error rest) := by
  cases l with
  | nil => rfl
  | cons a l0 => exact encodeChunks_cons error a l0

theorem decodeChunks_eq_scan (error : Nat) (l : List Nat) :
    decodeChunks error l =
      match scanStep 0 0 [] l with
      | .incomplete _ => .ok (0, [])
      | .accepted seq cp rest =>
        if 0xEF80 ≤ cp ∧ cp ≤ 0xEFFF then
          exceptAcc 1 [xtf8_decode_byte cp] (decodeChunks error rest)
        else exceptAcc seq.length seq (decodeChunks error rest)
      | .rejected _pend rest =>
        if error = 1 then .error []
        else exceptAcc 3 (utf8enc3 0xFFFD) (decodeChunks error rest) := by
  cases l with
  | nil => rfl
  | cons a l0 => exact decodeChunks_cons error a l0

theorem encodeChunksMid_fresh (error c : Nat) (l : List Nat) :
    encodeChunksMid error 0 c [] l = encodeChunks error l := by
  rw [encodeChunksMid_def, scanStep_codep_irrel c 0, ← encodeChunks_eq_scan]

theorem decodeChunksMid_fresh (error c : Nat) (l : List Nat) :
    decodeChunksMid error 0 c [] l = decodeChunks error l := by
  rw [decodeChunksMid_def, scanStep_codep_irrel c 0, ← decodeChunks_eq_scan]

/-- The encode loop, started in any consistent configuration with
matching `s_prev = s_cur`, produces exactly the chunk classification of
the remaining input prefixed by the accumulated `(sz, out)`. -/
theorem encodeLoop_eq_chunks (fuel : Nat) :
    ∀ (l : List Nat) (error s pos state codep sz : Nat) (out : List Nat),
    pos ≤ s → s ≤ l.length →
    (state = 0 → pos = s) → (state ≠ 0 → pos < s) →
    2 * (l.length - s) + (if state = 0 then 0 else 1) ≤ fuel →
    encodeLoop fuel l error s pos state state codep sz out =
      exceptAcc sz out (encodeChunksMid error state codep (region l pos s) (l.drop s)) := by
  induction fuel with
  | zero =>
    intro l error s pos state codep sz out h1 h2 h3 h4 hm
    have hst : state = 0 := by
      by_cases h : state = 0
      · exact h
      · rw [if_neg h] at hm; omega
    rw [if_pos hst] at hm
    have hsl : s = l.length := by omega
    have hpos : pos = s := h3 hst
    subst hst hpos hsl
    rw [region_self]
    rw [List.drop_eq_nil_of_le (le_refl _)]
    simp [encodeLoop, encodeChunksMid_def, scanStep, exceptAcc]
  | succ fuel ih =>
    intro l error s pos state codep sz out h1 h2 h3 h4 hm
    by_cases hs : s < l.length
    · have hdrop : l.drop s = l.getD s 0 :: l.drop (s+1) := drop_cons_getD hs
      rw [encodeLoop, if_pos hs]
      rcases hu : utf8_decode state codep (l.getD s 0) with ⟨st, cp⟩
      dsimp only
      by_cases hst : st = 0
      · -- ACCEPT
        subst hst
        rw [if_pos rfl]
        have hscan : scanStep state codep (region l pos s) (l.drop s) =
            .accepted (region l pos s ++ [l.getD s 0]) cp (l.drop (s+1)) := by
          rw [hdrop, scanStep, hu]
          dsimp only
          rw [if_pos rfl]
        rw [encodeChunksMid_def, hscan]
        dsimp only
        by_cases hpua : 0xEF80 ≤ cp ∧ cp ≤ 0xEFFF
        · rw [if_pos hpua, if_pos hpua]
          by_cases herr : error = 1
          · rw [if_pos herr, if_pos herr]
            simp [exceptAcc]
          · rw [if_neg herr, if_neg herr]
            rw [ih l error (s+1) (s+1) 0 0xFFFD (sz+3) (out ++ utf8enc3 0xFFFD)
              (le_refl _) hs (fun _ => rfl) (fun h => absurd rfl h) (by simp; omega)]
            rw [region_self, encodeChunksMid_fresh, exceptAcc_comp]
        · rw [if_neg hpua, if_neg hpua]
          rw [ih l error (s+1) (s+1) 0 cp (sz + (s + 1 - pos)) (out ++ region l pos (s+1))
            (le_refl _) hs (fun _ => rfl) (fun h => absurd rfl h) (by simp; omega)]
          rw [region_self, encodeChunksMid_fresh, exceptAcc_comp]
          rw [← region_extend h1 hs]
          rw [region_length (by omega)]
      · rw [if_neg hst]
        by_cases hst12 : st = 12
        · -- REJECT
          subst hst12
          rw [if_pos rfl]
          by_cases hstate : state = 0
          · -- no rewind: the pending region is the current byte alone
            have hpos := h3 hstate
            rw [if_neg (by simp [hstate])]
            have hscan : scanStep state codep (region l pos s) (l.drop s) =
                .rejected (region l pos s ++ [l.getD s 0]) (l.drop (s+1)) := by
              rw [hdrop, scanStep, hu]
              dsimp only
              rw [if_neg hst, if_pos rfl, if_pos hstate]
            rw [encodeChunksMid_def, hscan]
            dsimp only
            rw [ih l error (s+1) (s+1) 0 cp
              (sz + 3 * (region l pos (s+1)).length) (out ++ (region l pos (s+1)).flatMap pua3)
              (le_refl _) hs (fun _ => rfl) (fun h => absurd rfl h) (by simp; omega)]
            rw [region_self, encodeChunksMid_fresh, exceptAcc_comp]
            rw [← region_extend h1 hs]
          · -- rewind: pending region excludes the current byte, retry it
            have hposlt := h4 hstate
            rw [if_pos hstate]
            have hscan : scanStep state codep (region l pos s) (l.drop s) =
                .rejected (region l pos s) (l.drop s) := by
              rw [hdrop, scanStep, hu]
              dsimp only
              rw [if_neg hst, if_pos rfl, if_neg hstate, ← hdrop]
            rw [encodeChunksMid_def, hscan]
            dsimp only
            rw [ih l error s s 0 cp
              (sz + 3 * (region l pos s).length) (out ++ (region l pos s).flatMap pua3)
              (le_refl _) (by omega) (fun _ => rfl) (fun h => absurd rfl h)
              (by rw [if_neg hstate] at hm; simp; omega)]
            rw [region_self, encodeChunksMid_fresh, exceptAcc_comp]
        · -- more bytes needed
          rw [if_neg hst12]
          have hscan : scanStep state codep (region l pos s) (l.drop s) =
              scanStep st cp (region l pos s ++ [l.getD s 0]) (l.drop (s+1)) := by
            rw [hdrop, scanStep, hu]
            dsimp only
            rw [if_neg hst, if_neg hst12]
          rw [encodeChunksMid_def, hscan]
          rw [ih l error (s+1) pos st cp sz out (by omega) hs
            (fun h => absurd h hst) (fun _ => by omega)
            (by rw [if_neg hst]; split at hm <;> omega)]
          rw [encodeChunksMid_def]
          rw [region_extend h1 hs]
    · rw [encodeLoop, if_neg hs]
      rw [List.drop_eq_nil_of_le (by omega)]
      simp [encodeChunksMid_def, scanStep, exceptAcc]

/-- Decode counterpart of `encodeLoop_eq_chunks`. -/
theorem decodeLoop_eq_chunks (fuel : Nat) :
    ∀ (l : List Nat) (error s pos state codep sz : Nat) (out : List Nat),
    pos ≤ s → s ≤ l.length →
    (state = 0 → pos = s) → (state ≠ 0 → pos < s) →
    2 * (l.length - s) + (if state = 0 then 0 else 1) ≤ fuel →
    decodeLoop fuel l error s pos state state codep sz out =
      exceptAcc sz out (decodeChunksMid error state codep (region l pos s) (l.drop s)) := by
  induction fuel with
  | zero =>
    intro l error s pos state codep sz out h1 h2 h3 h4 hm
    have hst : state = 0 := by
      by_cases h : state = 0
      · exact h
      · rw [if_neg h] at hm; omega
    rw [if_pos hst] at hm
    have hsl : s = l.length := by omega
    have hpos : pos = s := h3 hst
    subst hst hpos hsl
    rw [region_self]
    rw [List.drop_eq_nil_of_le (le_refl _)]
    simp [decodeLoop, decodeChunksMid_def, scanStep, exceptAcc]
  | succ fuel ih =>
    intro l error s pos state codep sz out h1 h2 h3 h4 hm
    by_cases hs : s < l.length
    · have hdrop : l.drop s = l.getD s 0 :: l.drop (s+1) := drop_cons_getD hs
      rw [decodeLoop, if_pos hs]
      rcases hu : utf8_decode state codep (l.getD s 0) with ⟨st, cp⟩
      dsimp only
      by_cases hst : st = 0
      · -- ACCEPT
        subst hst
        rw [if_pos rfl]
        have hscan : scanStep state codep (region l pos s) (l.drop s) =
            .accepted (region l pos s ++ [l.getD s 0]) cp (l.drop (s+1)) := by
          rw [hdrop, scanStep, hu]
          dsimp only
          rw [if_pos rfl]
        rw [decodeChunksMid_def, hscan]
        dsimp only
        by_cases hpua : 0xEF80 ≤ cp ∧ cp ≤ 0xEFFF
        · rw [if_pos hpua, if_pos hpua]
          rw [ih l error (s+1) (s+1) 0 cp (sz+1) (out ++ [xtf8_decode_byte cp])
            (le_refl _) hs (fun _ => rfl) (fun h => absurd rfl h) (by simp; omega)]
          rw [region_self, decodeChunksMid_fresh, exceptAcc_comp]
        · rw [if_neg hpua, if_neg hpua]
          rw [ih l error (s+1) (s+1) 0 cp (sz + (s + 1 - pos)) (out ++ region l pos (s+1))
            (le_refl _) hs (fun _ => rfl) (fun h => absurd rfl h) (by simp; omega)]
          rw [region_self, decodeChunksMid_fresh, exceptAcc_comp]
          rw [← region_extend h1 hs]
          rw [region_length (by omega)]
      · rw [if_neg hst]
        by_cases hst12 : st = 12
        · -- REJECT
          subst hst12
          rw [if_pos rfl]
          by_cases herr : error = 1
          · rw [if_pos herr]
            by_cases hstate : state = 0
            · have hscan : scanStep state codep (region l pos s) (l.drop s) =
                  .rejected (region l pos s ++ [l.getD s 0]) (l.drop (s+1)) := by
                rw [hdrop, scanStep, hu]
                dsimp only
                rw [if_neg hst, if_pos rfl, if_pos hstate]
              rw [decodeChunksMid_def, hscan]
              dsimp only
              rw [if_pos herr]
              simp [exceptAcc]
            · have hscan : scanStep state codep (region l pos s) (l.drop s) =
                  .rejected (region l pos s) (l.drop s) := by
                rw [hdrop, scanStep, hu]
                dsimp only
                rw [if_neg hst, if_pos rfl, if_neg hstate, ← hdrop]
              rw [decodeChunksMid_def, hscan]
              dsimp only
              rw [if_pos herr]
              simp [exceptAcc]
          · rw [if_neg herr]
            by_cases hstate : state = 0
            · have hpos := h3 hstate
              rw [if_neg (by simp [hstate])]
              have hscan : scanStep state codep (region l pos s) (l.drop s) =
                  .rejected (region l pos s ++ [l.getD s 0]) (l.drop (s+1)) := by
                rw [hdrop, scanStep, hu]
                dsimp only
                rw [if_neg hst, if_pos rfl, if_pos hstate]
              rw [decodeChunksMid_def, hscan]
              dsimp only
              rw [if_neg herr]
              rw [ih l error (s+1) (s+1) 0 0xFFFD (sz + 3) (out ++ utf8enc3 0xFFFD)
                (le_refl _) hs (fun _ => rfl) (fun h => absurd rfl h) (by simp; omega)]
              rw [region_self, decodeChunksMid_fresh, exceptAcc_comp]
            · have hposlt := h4 hstate
              rw [if_pos hstate]
              have hscan : scanStep state codep (region l pos s) (l.drop s) =
                  .rejected (region l pos s) (l.drop s) := by
                rw [hdrop, scanStep, hu]
                dsimp only
                rw [if_neg hst, if_pos rfl, if_neg hstate, ← hdrop]
              rw [decodeChunksMid_def, hscan]
              dsimp only
              rw [if_neg herr]
              rw [ih l error s s 0 0xFFFD (sz + 3) (out ++ utf8enc3 0xFFFD)
                (le_refl _) (by omega) (fun _ => rfl) (fun h => absurd rfl h)
                (by rw [if_neg hstate] at hm; simp; omega)]
              rw [region_self, decodeChunksMid_fresh, exceptAcc_comp]
        · -- more bytes needed
          rw [if_neg hst12]
          have hscan : scanStep state codep (region l pos s) (l.drop s) =
              scanStep st cp (region l pos s ++ [l.getD s 0]) (l.drop (s+1)) := by
            rw [hdrop, scanStep, hu]
            dsimp only
            rw [if_neg hst, if_neg hst12]
          rw [decodeChunksMid_def, hscan]
          rw [ih l error (s+1) pos st cp sz out (by omega) hs
            (fun h => absurd h hst) (fun _ => by omega)
            (by rw [if_neg hst]; split at hm <;> omega)]
          rw [decodeChunksMid_def]
          rw [region_extend h1 hs]
    · rw [decodeLoop, if_neg hs]
      rw [List.drop_eq_nil_of_le (by omega)]
      simp [decodeChunksMid_def, scanStep, exceptAcc]

/-- `xtf8_encode` computes the chunk classification of its input. -/
theorem xtf8_encode_eq_chunks (l : List Nat) (error : Nat) :
    xtf8_encode l error = encodeChunks error l := by
  rw [xtf8_encode,
    encodeLoop_eq_chunks (2 * l.length + 1) l error 0 0 0 0 0 []
      (le_refl _) (by omega) (fun _ => rfl) (fun h => absurd rfl h) (by simp)]
  rw [region_self, List.drop_zero, encodeChunksMid_fresh, exceptAcc_zero]

/-- `xtf8_decode` computes the chunk classification of its input. -/
theorem xtf8_decode_eq_chunks (l : List Nat) (error : Nat) :
    xtf8_decode l error = decodeChunks error l := by
  rw [xtf8_decode,
    decodeLoop_eq_chunks (2 * l.length + 1) l error 0 0 0 0 0 []
      (le_refl _) (by omega) (fun _ => rfl) (fun h => absurd rfl h) (by simp)]
  rw [region_self, List.drop_zero, decodeChunksMid_fresh, exceptAcc_zero]

/-! ### Sizing: the counter always equals the number of bytes produced -/

theorem flatMap_pua3_length (pend : List Nat) :
    (pend.flatMap pua3).length = 3 * pend.length := by
  induction pend with
  | nil => rfl
  | cons b t ih => simp [pua3, utf8enc3, ih]; omega

theorem encodeChunks_ok_length (n : Nat) : ∀ (l : List Nat) (error sz : Nat) (out : List Nat),
    l.length ≤ n → encodeChunks error l = .ok (sz, out) → sz = out.length := by
  induction n with
  | zero =>
    intro l error sz out hlen h
    have : l = [] := List.eq_nil_of_length_eq_zero (by omega)
    subst this
    rw [encodeChunks_nil] at h
    cases h
    rfl
  | succ n ih =>
    intro l error sz out hlen h
    cases l with
    | nil =>
      rw [encodeChunks_nil] at h
      cases h
      rfl
    | cons a l0 =>
      rw [encodeChunks_cons] at h
      cases hscan : scanStep 0 0 [] (a :: l0) with
      | accepted seq cp rest =>
        rw [hscan] at h
        dsimp only at h
        obtain ⟨chunk, hne, hseq, hsplit, _⟩ := scanStep_accepted hscan
        have hr : rest.length ≤ n := by
          have := congrArg List.length hsplit
          simp at this
          cases chunk with
          | nil => exact absurd rfl hne
          | cons y ys => simp at this; simp at hlen; omega
        by_cases hpua : 0xEF80 ≤ cp ∧ cp ≤ 0xEFFF
        · rw [if_pos hpua] at h
          by_cases herr : error = 1
          · rw [if_pos herr] at h; cases h
          · rw [if_neg herr] at h
            cases hrec : encodeChunks error rest with
            | ok v =>
              obtain ⟨sz', out'⟩ := v
              rw [hrec] at h
              simp [exceptAcc] at h
              obtain ⟨h1, h2⟩ := h
              have := ih rest error sz' out' hr hrec
              subst h1 h2
              simp [utf8enc3, this]
              omega
            | error e => rw [hrec] at h; simp [exceptAcc] at h
        · rw [if_neg hpua] at h
          cases hrec : encodeChunks error rest with
          | ok v =>
            obtain ⟨sz', out'⟩ := v
            rw [hrec] at h
            simp [exceptAcc] at h
            obtain ⟨h1, h2⟩ := h
            have := ih rest error sz' out' hr hrec
            subst h1 h2
            simp [this]
          | error e => rw [hrec] at h; simp [exceptAcc] at h
      | rejected pend rest =>
        rw [hscan] at h
        dsimp only at h
        obtain ⟨chunk, _, hsplit, hne⟩ := scanStep_rejected hscan
        have hr : rest.length ≤ n := by
          have := congrArg List.length hsplit
          simp at this
          cases chunk with
          | nil => exact absurd rfl (hne rfl)
          | cons y ys => simp at this; simp at hlen; omega
        cases hrec : encodeChunks error rest with
        | ok v =>
          obtain ⟨sz', out'⟩ := v
          rw [hrec] at h
          simp [exceptAcc] at h
          obtain ⟨h1, h2⟩ := h
          have := ih rest error sz' out' hr hrec
          subst h1 h2
          rw [List.length_append, flatMap_pua3_length, this]
        | error e => rw [hrec] at h; simp [exceptAcc] at h
      | incomplete p =>
        rw [hscan] at h
        cases h
        rfl

theorem decodeChunks_ok_length (n : Nat) : ∀ (l : List Nat) (error sz : Nat) (out : List Nat),
    l.length ≤ n → decodeChunks error l = .ok (sz, out) → sz = out.length := by
  induction n with
  | zero =>
    intro l error sz out hlen h
    have : l = [] := List.eq_nil_of_length_eq_zero (by omega)
    subst this
    rw [decodeChunks_nil] at h
    cases h
    rfl
  | succ n ih =>
    intro l error sz out hlen h
    cases l with
    | nil =>
      rw [decodeChunks_nil] at h
      cases h
      rfl
    | cons a l0 =>
      rw [decodeChunks_cons] at h
      cases hscan : scanStep 0 0 [] (a :: l0) with
      | accepted seq cp rest =>
        rw [hscan] at h
        dsimp only at h
        obtain ⟨chunk, hne, hseq, hsplit, _⟩ := scanStep_accepted hscan
        have hr : rest.length ≤ n := by
          have := congrArg List.length hsplit
          simp at this
          cases chunk with
          | nil => exact absurd rfl hne
          | cons y ys => simp at this; simp at hlen; omega
        by_cases hpua : 0xEF80 ≤ cp ∧ cp ≤ 0xEFFF
        · rw [if_pos hpua] at h
          cases hrec : decodeChunks error rest with
          | ok v =>
            obtain ⟨sz', out'⟩ := v
            rw [hrec] at h
            simp [exceptAcc] at h
            obtain ⟨h1, h2⟩ := h
            have := ih rest error sz' out' hr hrec
            subst h1 h2
            simp [this]
            omega
          | error e => rw [hrec] at h; simp [exceptAcc] at h
        · rw [if_neg hpua] at h
          cases hrec : decodeChunks error rest with
          | ok v =>
            obtain ⟨sz', out'⟩ := v
            rw [hrec] at h
            simp [exceptAcc] at h
            obtain ⟨h1, h2⟩ := h
            have := ih rest error sz' out' hr hrec
            subst h1 h2
            simp [this]
          | error e => rw [hrec] at h; simp [exceptAcc] at h
      | rejected pend rest =>
        rw [hscan] at h
        dsimp only at h
        obtain ⟨chunk, _, hsplit, hne⟩ := scanStep_rejected hscan
        have hr : rest.length ≤ n := by
          have := congrArg List.length hsplit
          simp at this
          cases chunk with
          | nil => exact absurd rfl (hne rfl)
          | cons y ys => simp at this; simp at hlen; omega
        by_cases herr : error = 1
        · rw [if_pos herr] at h; cases h
        · rw [if_neg herr] at h
          cases hrec : decodeChunks error rest with
          | ok v =>
            obtain ⟨sz', out'⟩ := v
            rw [hrec] at h
            simp [exceptAcc] at h
            obtain ⟨h1, h2⟩ := h
            have := ih rest error sz' out' hr hrec
            subst h1 h2
            simp [utf8enc3, this]
            omega
          | error e => rw [hrec] at h; simp [exceptAcc] at h
      | incomplete p =>
        rw [hscan] at h
        cases h
        rfl

/-! ### Validity of encode output -/

/-- For every reserved codepoint, its 3-byte form is an accepted chunk. -/
theorem pua_d_accepts : ∀ d < 128,
    acceptsAt 0 0 (0xEF80 ||| d) (utf8enc3 (0xEF80 ||| d)) = true := by decide

theorem validScan_codep_irrel (c c' : Nat) (l : List Nat) :
    validScan 0 c l = validScan 0 c' l := by
  cases l with
  | nil => rfl
  | cons b t =>
    rw [validScan, validScan, utf8_decode_codep_irrel c c' b]

/-- Scanning past an accepted chunk continues from `(ACCEPT, cp)`. -/
theorem validScan_accepts {chunk : List Nat} {state codep cp : Nat}
    (h : acceptsAt state codep cp chunk = true) (rest : List Nat) :
    validScan state codep (chunk ++ rest) = validScan 0 cp rest := by
  induction chunk generalizing state codep with
  | nil => simp [acceptsAt] at h
  | cons b tail ih =>
    rw [acceptsAt] at h
    rcases hu : utf8_decode state codep b with ⟨st, c⟩
    rw [hu] at h
    cases tail with
    | nil =>
      simp only [decide_eq_true_eq] at h
      obtain ⟨hst, hc⟩ := h
      rw [List.cons_append, List.nil_append, validScan, hu]
      subst hst hc
      simp
    | cons x xs =>
      simp only [Bool.and_eq_true, decide_eq_true_eq] at h
      obtain ⟨⟨hst, hst12⟩, hacc⟩ := h
      rw [List.cons_append, validScan, hu]
      dsimp only
      rw [ih hacc]
      simp [hst12]

/-- Folding the scanner past an accepted chunk lands on `(ACCEPT, cp)`. -/
theorem foldl_accepts {chunk : List Nat} {state codep cp : Nat}
    (h : acceptsAt state codep cp chunk = true) :
    chunk.foldl (fun sc b => utf8_decode sc.1 sc.2 b) (state, codep) = (0, cp) := by
  induction chunk generalizing state codep with
  | nil => simp [acceptsAt] at h
  | cons b tail ih =>
    rw [acceptsAt] at h
    rcases hu : utf8_decode state codep b with ⟨st, c⟩
    rw [hu] at h
    cases tail with
    | nil =>
      simp only [decide_eq_true_eq] at h
      obtain ⟨hst, hc⟩ := h
      simp [hu, hst, hc]
    | cons x xs =>
      simp only [Bool.and_eq_true, decide_eq_true_eq] at h
      obtain ⟨_, hacc⟩ := h
      simp only [List.foldl_cons, hu]
      exact ih hacc

/-- A fully valid scan ends in the ACCEPT state. -/
theorem foldl_of_validScan : ∀ (l : List Nat) (state codep : Nat),
    validScan state codep l = true →
    (l.foldl (fun sc b => utf8_decode sc.1 sc.2 b) (state, codep)).1 = 0 := by
  intro l
  induction l with
  | nil =>
    intro state codep h
    simp [validScan] at h
    simpa using h
  | cons b t ih =>
    intro state codep h
    rw [validScan] at h
    rcases hu : utf8_decode state codep b with ⟨st, c⟩
    rw [hu] at h
    simp only [Bool.and_eq_true] at h
    simpa [hu] using ih st c h.2

/-- PUA re-encodings of arbitrary bytes scan validly. -/
theorem validScan_pua_chunks : ∀ (pend : List Nat) (rest : List Nat),
    validScan 0 0 (pend.flatMap pua3 ++ rest) = validScan 0 0 rest := by
  intro pend
  induction pend with
  | nil => simp
  | cons b t ih =>
    intro rest
    have hd : b &&& 0x7F < 128 := by
      have := Nat.and_le_right (n := b) (m := 0x7F)
      omega
    have hacc := pua_d_accepts (b &&& 0x7F) hd
    rw [show ((b :: t).flatMap pua3 ++ rest) = pua3 b ++ (t.flatMap pua3 ++ rest) by simp]
    rw [show pua3 b = utf8enc3 (0xEF80 ||| (b &&& 0x7F)) from rfl]
    rw [validScan_accepts hacc]
    rw [validScan_codep_irrel _ 0]
    exact ih rest

/-- The output of the chunk-level encoder is valid under the scanner:
never REJECT, ending in ACCEPT. -/
theorem encodeChunks_valid (n : Nat) : ∀ (l : List Nat) (error sz : Nat) (out : List Nat),
    l.length ≤ n → encodeChunks error l = .ok (sz, out) → validScan 0 0 out = true := by
  induction n with
  | zero =>
    intro l error sz out hlen h
    have : l = [] := List.eq_nil_of_length_eq_zero (by omega)
    subst this
    rw [encodeChunks_nil] at h
    cases h
    rfl
  | succ n ih =>
    intro l error sz out hlen h
    cases l with
    | nil =>
      rw [encodeChunks_nil] at h
      cases h
      rfl
    | cons a l0 =>
      rw [encodeChunks_cons] at h
      cases hscan : scanStep 0 0 [] (a :: l0) with
      | accepted seq cp rest =>
        rw [hscan] at h
        dsimp only at h
        obtain ⟨chunk, hne, hseq, hsplit, hacc⟩ := scanStep_accepted hscan
        have hr : rest.length ≤ n := by
          have := congrArg List.length hsplit
          simp at this
          cases chunk with
          | nil => exact absurd rfl hne
          | cons y ys => simp at this; simp at hlen; omega
        by_cases hpua : 0xEF80 ≤ cp ∧ cp ≤ 0xEFFF
        · rw [if_pos hpua] at h
          by_cases herr : error = 1
          · rw [if_pos herr] at h; cases h
          · rw [if_neg herr] at h
            cases hrec : encodeChunks error rest with
            | ok v =>
              obtain ⟨sz', out'⟩ := v
              rw [hrec] at h
              simp [exceptAcc] at h
              obtain ⟨h1, h2⟩ := h
              subst h1 h2
              rw [validScan_accepts fffd_facts.1, validScan_codep_irrel _ 0]
              exact ih rest error sz' out' hr hrec
            | error e => rw [hrec] at h; simp [exceptAcc] at h
        · rw [if_neg hpua] at h
          cases hrec : encodeChunks error rest with
          | ok v =>
            obtain ⟨sz', out'⟩ := v
            rw [hrec] at h
            simp [exceptAcc] at h
            obtain ⟨h1, h2⟩ := h
            subst h1 h2
            have hseq' : seq = chunk := by simpa using hseq
            subst hseq'
            rw [validScan_accepts hacc, validScan_codep_irrel _ 0]
            exact ih rest error sz' out' hr hrec
          | error e => rw [hrec] at h; simp [exceptAcc] at h
      | rejected pend rest =>
        rw [hscan] at h
        dsimp only at h
        obtain ⟨chunk, _, hsplit, hne⟩ := scanStep_rejected hscan
        have hr : rest.length ≤ n := by
          have := congrArg List.length hsplit
          simp at this
          cases chunk with
          | nil => exact absurd rfl (hne rfl)
          | cons y ys => simp at this; simp at hlen; omega
        cases hrec : encodeChunks error rest with
        | ok v =>
          obtain ⟨sz', out'⟩ := v
          rw [hrec] at h
          simp [exceptAcc] at h
          obtain ⟨h1, h2⟩ := h
          subst h1 h2
          rw [validScan_pua_chunks]
          exact ih rest error sz' out' hr hrec
        | error e => rw [hrec] at h; simp [exceptAcc] at h
      | incomplete p =>
        rw [hscan] at h
        cases h
        rfl

/-! ### Round-trip -/

/-- Decoding the PUA re-encodings of non-ASCII bytes recovers those
bytes and continues with the rest. -/
theorem decodeChunks_pua_block : ∀ (pend : List Nat) (error : Nat) (rest : List Nat),
    (∀ b ∈ pend, 0x80 ≤ b ∧ b < 256) →
    decodeChunks error (pend.flatMap pua3 ++ rest) =
      exceptAcc pend.length pend (decodeChunks error rest) := by
  intro pend
  induction pend with
  | nil =>
    intro error rest _
    simp [exceptAcc_zero]
  | cons b t ih =>
    intro error rest hb
    obtain ⟨hge, hlt⟩ := hb b (by simp)
    obtain ⟨hacc, hbyte, hlo, hhi⟩ := pua_b_facts b hlt hge
    rw [show ((b :: t).flatMap pua3 ++ rest) = pua3 b ++ (t.flatMap pua3 ++ rest) by simp]
    rw [decodeChunks_eq_scan]
    rw [show (pua3 b : List Nat) = utf8enc3 (0xEF80 ||| (b &&& 0x7F)) from rfl] at hacc ⊢
    rw [scanStep_of_acceptsAt hacc [] (t.flatMap pua3 ++ rest)]
    dsimp only
    rw [if_pos ⟨hlo, hhi⟩, hbyte]
    rw [ih error rest (fun x hx => hb x (by simp [hx]))]
    rw [exceptAcc_comp]
    have h1 : (1 : Nat) + t.length = (b :: t).length := by simp; omega
    rw [h1]
    rfl

/-- Under the REPLACE policy the chunk-level encoder never aborts. -/
theorem encodeChunks_replace_ok (n : Nat) : ∀ (l : List Nat) (error : Nat),
    l.length ≤ n → error ≠ 1 →
    ∃ sz out, encodeChunks error l = .ok (sz, out) := by
  induction n with
  | zero =>
    intro l error hlen _
    have : l = [] := List.eq_nil_of_length_eq_zero (by omega)
    subst this
    exact ⟨0, [], rfl⟩
  | succ n ih =>
    intro l error hlen herr
    cases l with
    | nil => exact ⟨0, [], rfl⟩
    | cons a l0 =>
      rw [encodeChunks_cons]
      cases hscan : scanStep 0 0 [] (a :: l0) with
      | accepted seq cp rest =>
        obtain ⟨chunk, hne, _, hsplit, _⟩ := scanStep_accepted hscan
        have hr : rest.length ≤ n := by
          have := congrArg List.length hsplit
          simp at this
          cases chunk with
          | nil => exact absurd rfl hne
          | cons y ys => simp at this; simp at hlen; omega
        obtain ⟨sz', out', hrec⟩ := ih rest error hr herr
        dsimp only
        by_cases hpua : 0xEF80 ≤ cp ∧ cp ≤ 0xEFFF
        · rw [if_pos hpua, if_neg herr, hrec]
          exact ⟨_, _, rfl⟩
        · rw [if_neg hpua, hrec]
          exact ⟨_, _, rfl⟩
      | rejected pend rest =>
        obtain ⟨chunk, _, hsplit, hne⟩ := scanStep_rejected hscan
        have hr : rest.length ≤ n := by
          have := congrArg List.length hsplit
          simp at this
          cases chunk with
          | nil => exact absurd rfl (hne rfl)
          | cons y ys => simp at this; simp at hlen; omega
        obtain ⟨sz', out', hrec⟩ := ih rest error hr herr
        dsimp only
        rw [hrec]
        exact ⟨_, _, rfl⟩
      | incomplete p => exact ⟨0, [], rfl⟩

/-- Chunk-level round trip: in the absence of reserved-range collisions
and of a trailing truncated sequence, decode inverts encode. -/
theorem roundtrip_chunks (n : Nat) : ∀ (l : List Nat) (eerr derr : Nat),
    l.length ≤ n → (∀ b ∈ l, b < 256) →
    noPUAChunks l = true → noTrailTrunc l = true →
    ∃ out, encodeChunks eerr l = .ok (out.length, out) ∧
      decodeChunks derr out = .ok (l.length, l) := by
  induction n with
  | zero =>
    intro l eerr derr hlen _ _ _
    have : l = [] := List.eq_nil_of_length_eq_zero (by omega)
    subst this
    exact ⟨[], rfl, rfl⟩
  | succ n ih =>
    intro l eerr derr hlen hbytes hnp hnt
    cases l with
    | nil => exact ⟨[], rfl, rfl⟩
    | cons a l0 =>
      rw [encodeChunks_cons]
      cases hscan : scanStep 0 0 [] (a :: l0) with
      | accepted seq cp rest =>
        obtain ⟨chunk, hne, hseq, hsplit, hacc⟩ := scanStep_accepted hscan
        have hseq' : seq = chunk := by simpa using hseq
        subst hseq'
        have hr : rest.length ≤ n := by
          have := congrArg List.length hsplit
          simp at this
          cases seq with
          | nil => exact absurd rfl hne
          | cons y ys => simp at this; simp at hlen; omega
        have hrest_bytes : ∀ b ∈ rest, b < 256 := by
          intro b hbmem
          exact hbytes b (by rw [hsplit]; exact List.mem_append.mpr (Or.inr hbmem))
        have hpua : ¬(0xEF80 ≤ cp ∧ cp ≤ 0xEFFF) := by
          rw [noPUAChunks_cons, hscan] at hnp
          dsimp only at hnp
          simp only [Bool.and_eq_true, Bool.not_eq_eq_eq_not, Bool.not_true,
            decide_eq_false_iff_not] at hnp
          exact hnp.1
        have hnp' : noPUAChunks rest = true := by
          rw [noPUAChunks_cons, hscan] at hnp
          dsimp only at hnp
          simp only [Bool.and_eq_true] at hnp
          exact hnp.2
        have hnt' : noTrailTrunc rest = true := by
          rw [noTrailTrunc_cons, hscan] at hnt
          exact hnt
        obtain ⟨out', henc', hdec'⟩ := ih rest eerr derr hr hrest_bytes hnp' hnt'
        dsimp only
        rw [if_neg hpua, henc']
        refine ⟨seq ++ out', ?_, ?_⟩
        · simp [exceptAcc]
        · rw [decodeChunks_eq_scan]
          rw [show seq ++ out' = seq ++ out' from rfl,
            scanStep_of_acceptsAt hacc [] out']
          dsimp only
          rw [if_neg hpua, hdec']
          have hlsplit : (a :: l0).length = seq.length + rest.length := by
            rw [hsplit]; simp
          simp [exceptAcc, hlsplit, hsplit]
      | rejected pend rest =>
        obtain ⟨chunk, hpend, hsplit, hne⟩ := scanStep_rejected hscan
        have hpend' : pend = chunk := by simpa using hpend
        subst hpend'
        have hr : rest.length ≤ n := by
          have := congrArg List.length hsplit
          simp at this
          cases pend with
          | nil => exact absurd rfl (hne rfl)
          | cons y ys => simp at this; simp at hlen; omega
        have hrest_bytes : ∀ b ∈ rest, b < 256 := by
          intro b hbmem
          exact hbytes b (by rw [hsplit]; exact List.mem_append.mpr (Or.inr hbmem))
        have hpbytes : ∀ b ∈ pend, 0x80 ≤ b ∧ b < 256 :=
          scanStep_rejected_bytes (by simp [usedStates]) (by simp) hbytes hscan
        have hnp' : noPUAChunks rest = true := by
          rw [noPUAChunks_cons, hscan] at hnp
          exact hnp
        have hnt' : noTrailTrunc rest = true := by
          rw [noTrailTrunc_cons, hscan] at hnt
          exact hnt
        obtain ⟨out', henc', hdec'⟩ := ih rest eerr derr hr hrest_bytes hnp' hnt'
        dsimp only
        rw [henc']
        refine ⟨pend.flatMap pua3 ++ out', ?_, ?_⟩
        · simp only [exceptAcc, List.length_append, flatMap_pua3_length]
        · rw [decodeChunks_pua_block pend derr out' hpbytes, hdec']
          have hlsplit : (a :: l0).length = pend.length + rest.length := by
            rw [hsplit]; simp
          simp [exceptAcc, hlsplit, hsplit]
      | incomplete p =>
        rw [noTrailTrunc_cons, hscan] at hnt
        cases hnt

/-! ### The REJECT-branch assertion of encode -/

/-- Invariant proof for `encodeAssertsF`: from any configuration whose
pending region holds only non-ASCII bytes, every assertion holds. -/
theorem encodeAssertsF_inv (fuel : Nat) : ∀ (l : List Nat) (s pos state codep : Nat),
    pos ≤ s → s ≤ l.length →
    state ∈ usedStates →
    (state = 0 → pos = s) →
    (∀ b ∈ region l pos s, 0x80 ≤ b) →
    (∀ b ∈ l, b < 256) →
    encodeAssertsF fuel l s pos state state codep = true := by
  induction fuel with
  | zero => intro l s pos state codep _ _ _ _ _ _; rfl
  | succ fuel ih =>
    intro l s pos state codep h1 h2 hused h3 hreg hl
    rw [encodeAssertsF]
    by_cases hs : s < l.length
    · rw [if_pos hs]
      rcases hu : utf8_decode state codep (l.getD s 0) with ⟨st, cp⟩
      dsimp only
      have hb : l.getD s 0 < 256 := hl _ (getD_mem hs)
      have hst_eq : st = utf8dAt (256 + state + utf8dAt (l.getD s 0)) := by
        rw [← utf8_decode_fst state codep (l.getD s 0), hu]
      by_cases hst : st = 0
      · rw [if_pos hst]
        exact ih l (s+1) (s+1) 0 cp (le_refl _) hs (by simp [usedStates])
          (fun _ => rfl) (by rw [region_self]; simp) hl
      · rw [if_neg hst]
        by_cases hst12 : st = 12
        · rw [if_pos hst12]
          by_cases hstate : state = 0
          · have hpos := h3 hstate
            rw [if_neg (by simp [hstate])]
            have hbhigh : 0x80 ≤ l.getD s 0 := by
              rcases dfa_reject_high (l.getD s 0) hb with hhi | hne
              · exact hhi
              · rw [hstate] at hst_eq
                rw [hst12] at hst_eq
                exact absurd (by simpa using hst_eq.symm) hne
            refine (Bool.and_eq_true _ _).mpr ⟨?_, ?_⟩
            · rw [List.all_eq_true]
              intro x hx
              rw [region_extend h1 hs] at hx
              rcases List.mem_append.mp hx with hx | hx
              · exact decide_eq_true (hreg x hx)
              · have : x = l.getD s 0 := by simpa using hx
                subst this
                exact decide_eq_true hbhigh
            · exact ih l (s+1) (s+1) 0 cp (le_refl _) hs (by simp [usedStates])
                (fun _ => rfl) (by rw [region_self]; simp) hl
          · rw [if_pos hstate]
            refine (Bool.and_eq_true _ _).mpr ⟨?_, ?_⟩
            · rw [List.all_eq_true]
              intro x hx
              exact decide_eq_true (hreg x hx)
            · exact ih l s s 0 cp (le_refl _) (by omega) (by simp [usedStates])
                (fun _ => rfl) (by rw [region_self]; simp) hl
        · rw [if_neg hst12]
          have hbhigh : 0x80 ≤ l.getD s 0 := by
            rcases dfa_consumed_high state hused (l.getD s 0) hb with h0 | h12 | hhi
            · exact absurd (by rw [hst_eq, h0]) hst
            · exact absurd (by rw [hst_eq, h12]) hst12
            · exact hhi
          have hstused : st ∈ usedStates := by
            rcases dfa_closure state hused (l.getD s 0) hb with h12 | hok
            · exact absurd (hst_eq.trans h12) hst12
            · rw [hst_eq]; exact hok
          refine ih l (s+1) pos st cp (by omega) hs hstused (fun h => absurd h hst) ?_ hl
          intro x hx
          rw [region_extend h1 hs] at hx
          rcases List.mem_append.mp hx with hx | hx
          · exact hreg x hx
          · have : x = l.getD s 0 := by simpa using hx
            subst this
            exact hbhigh
    · rw [if_neg hs]

/-! ### Helper facts for concrete reserved-range inputs -/

theorem pua_or_eq_add : ∀ d < 128, 0xEF80 ||| d = 0xEF80 + d := by decide

theorem low_or_eq_add : ∀ d < 128, d ||| 0x80 = 0x80 + d := by decide

theorem encode_pua_cases : ∀ d < 128,
    xtf8_encode (utf8enc3 (0xEF80 ||| d)) 1 = .error [] ∧
    xtf8_encode (utf8enc3 (0xEF80 ||| d)) 0 = .ok (3, [0xEF, 0xBF, 0xBD]) := by decide

/-! ### The claims -/

/-- Claim C1, counterexample: the single byte `0xC2` (a truncated 2-byte
lead) contains no byte sequence decoding to a reserved-range codepoint,
yet `decode(encode([0xC2]))` under REPLACE is `[]`, not `[0xC2]`: the
encoder silently drops a trailing unfinished sequence, so the round-trip
claim fails as stated. -/
theorem c1_roundtrip_counterexample :
    noPUAChunks [0xC2] = true ∧
    xtf8_encode [0xC2] 0 = .ok (0, []) ∧
    xtf8_decode [] 0 = .ok (0, []) ∧ ([] : List Nat) ≠ [0xC2] := by decide

/-- Claim C1, amended: for every byte sequence `B` that contains no byte
sequence decoding to a codepoint in the reserved range U+EF80..U+EFFF
and that does not end in a truncated multi-byte sequence,
`decode(encode(B)) = B` under the REPLACE policy (both calls also return
the matching sizes). -/
theorem c1_roundtrip_amended (B : List Nat) (hB : ∀ b ∈ B, b < 256)
    (hpua : noPUAChunks B = true) (htr : noTrailTrunc B = true) :
    ∃ out, xtf8_encode B 0 = .ok (out.length, out) ∧
      xtf8_decode out 0 = .ok (B.length, B) := by
  obtain ⟨out, he, hd⟩ := roundtrip_chunks B.length B 0 0 (le_refl _) hB hpua htr
  exact ⟨out, by rw [xtf8_encode_eq_chunks]; exact he,
    by rw [xtf8_decode_eq_chunks]; exact hd⟩

/-- Witness for `c1_roundtrip_amended` at `B = [0x41, 0xFF]`. -/
theorem c1_roundtrip_amended_witness :
    ∃ out, xtf8_encode [0x41, 0xFF] 0 = .ok (out.length, out) ∧
      xtf8_decode out 0 = .ok ([0x41, 0xFF].length, [0x41, 0xFF]) :=
  c1_roundtrip_amended [0x41, 0xFF] (by decide) (by decide) (by decide)

/-- Claim C2: whenever a call does not abort, the size counter of the
sizing pass equals the number of bytes the writing pass stores (and the
writing pass therefore returns `dst` advanced by exactly that size); the
embedding returns the counter and the stored bytes as a pair. -/
theorem c2_sizing_matches_write (B : List Nat) (error sz : Nat) (out : List Nat) :
    (xtf8_encode B error = .ok (sz, out) → sz = out.length) ∧
    (xtf8_decode B error = .ok (sz, out) → sz = out.length) := by
  constructor
  · intro h
    rw [xtf8_encode_eq_chunks] at h
    exact encodeChunks_ok_length B.length B error sz out (le_refl _) h
  · intro h
    rw [xtf8_decode_eq_chunks] at h
    exact decodeChunks_ok_length B.length B error sz out (le_refl _) h

/-- Witness for `c2_sizing_matches_write` at `B = [0xFF]` (encode side
re-encodes to a 3-byte PUA sequence; decode side replaces it). -/
theorem c2_sizing_matches_write_witness :
    xtf8_encode [0xFF] 0 = .ok (3, [0xEE, 0xBF, 0xBF]) ∧ (3 : Nat) = [0xEE, 0xBF, 0xBF].length ∧
    xtf8_decode [0xFF] 0 = .ok (3, [0xEF, 0xBF, 0xBD]) ∧ (3 : Nat) = [0xEF, 0xBF, 0xBD].length :=
  ⟨by decide, (c2_sizing_matches_write [0xFF] 0 3 [0xEE, 0xBF, 0xBF]).1 (by decide),
   by decide, (c2_sizing_matches_write [0xFF] 0 3 [0xEF, 0xBF, 0xBD]).2 (by decide)⟩

/-- Claim C3: encoding any byte sequence under REPLACE succeeds and its
output is structurally valid UTF-8: re-running the scanner over the
output never reaches REJECT and ends in ACCEPT (`is_utf8`). -/
theorem c3_encode_output_valid_utf8 (B : List Nat) (_hB : ∀ b ∈ B, b < 256) :
    ∃ sz out, xtf8_encode B 0 = .ok (sz, out) ∧
      validScan 0 0 out = true ∧ is_utf8 out = true := by
  obtain ⟨sz, out, h⟩ := encodeChunks_replace_ok B.length B 0 (le_refl _) (by decide)
  have hv := encodeChunks_valid B.length B 0 sz out (le_refl _) h
  refine ⟨sz, out, by rw [xtf8_encode_eq_chunks]; exact h, hv, ?_⟩
  have := foldl_of_validScan out 0 0 hv
  simpa [is_utf8] using this

/-- Witness for `c3_encode_output_valid_utf8` at `B = [0x61, 0xF5]`. -/
theorem c3_encode_output_valid_utf8_witness :
    ∃ sz out, xtf8_encode [0x61, 0xF5] 0 = .ok (sz, out) ∧
      validScan 0 0 out = true ∧ is_utf8 out = true :=
  c3_encode_output_valid_utf8 [0x61, 0xF5] (by decide)

/-- Claim C4: the byte `xtf8_decode` emits for a well-formed codepoint
in the reserved range is exactly `(codepoint & 0x7F) | 0x80` and is
always at least 0x80, never an ASCII byte, independent of the state of
the surrounding input (`xtf8_decode_byte` is the only emission path of
the PUA ACCEPT branch). -/
theorem c4_decode_pua_byte_nonascii (cp : Nat) (_h1 : 0xEF80 ≤ cp) (_h2 : cp ≤ 0xEFFF) :
    xtf8_decode_byte cp = (cp &&& 0x7F) ||| 0x80 ∧ 0x80 ≤ xtf8_decode_byte cp := by
  refine ⟨rfl, ?_⟩
  have hd : cp &&& 0x7F < 128 :=
    lt_of_le_of_lt (Nat.and_le_right) (by norm_num)
  rw [show xtf8_decode_byte cp = (cp &&& 0x7F) ||| 0x80 from rfl]
  rw [low_or_eq_add (cp &&& 0x7F) hd]
  omega

/-- Witness for `c4_decode_pua_byte_nonascii` at `cp = 0xEF80`. -/
theorem c4_decode_pua_byte_nonascii_witness :
    xtf8_decode_byte 0xEF80 = (0xEF80 &&& 0x7F) ||| 0x80 ∧ 0x80 ≤ xtf8_decode_byte 0xEF80 :=
  c4_decode_pua_byte_nonascii 0xEF80 (by decide) (by decide)

/-- Claim C5: encoding the 3-byte UTF-8 form of any reserved-range
codepoint returns the abort sentinel under ABORT with no byte written,
and under REPLACE returns length 3 with the output being the UTF-8 form
EF BF BD of U+FFFD at the collision position. -/
theorem c5_abort_and_replace (cp : Nat) (h1 : 0xEF80 ≤ cp) (h2 : cp ≤ 0xEFFF) :
    xtf8_encode (utf8enc3 cp) 1 = .error [] ∧
    xtf8_encode (utf8enc3 cp) 0 = .ok (3, [0xEF, 0xBF, 0xBD]) := by
  have hd : cp - 0xEF80 < 128 := by omega
  have h := encode_pua_cases (cp - 0xEF80) hd
  rw [pua_or_eq_add (cp - 0xEF80) hd] at h
  have hcp : 0xEF80 + (cp - 0xEF80) = cp := by omega
  rw [hcp] at h
  exact h

/-- Witness for `c5_abort_and_replace` at `cp = 0xEF90` (the spec's
concrete scenario: input EE BE 90). -/
theorem c5_abort_and_replace_witness :
    xtf8_encode (utf8enc3 0xEF90) 1 = .error [] ∧
    xtf8_encode (utf8enc3 0xEF90) 0 = .ok (3, [0xEF, 0xBF, 0xBD]) :=
  c5_abort_and_replace 0xEF90 (by decide) (by decide)

/-- Claim C6: in every run of `xtf8_encode` on a byte sequence, every
byte of the pending region re-encoded by the REJECT branch is non-ASCII,
so the assertion `assert(*pos >= 0x80)` can never fail
(`encodeAsserts` replays the loop's control flow and checks the
assertion at each REJECT). -/
theorem c6_reject_assert_never_fails (B : List Nat) (hB : ∀ b ∈ B, b < 256) :
    encodeAsserts B = true :=
  encodeAssertsF_inv (2 * B.length + 1) B 0 0 0 0 (le_refl _) (by omega)
    (by simp [usedStates]) (fun _ => rfl) (by rw [region_self]; simp) hB

/-- Witness for `c6_reject_assert_never_fails` on an input exercising
rewinding and non-rewinding REJECTs. -/
theorem c6_reject_assert_never_fails_witness :
    encodeAsserts [0xFF, 0xE0, 0x80, 0x41] = true :=
  c6_reject_assert_never_fails [0xFF, 0xE0, 0x80, 0x41] (by decide)

/-- Claim C7, counterexample: encoding `FF FE 80` yields the three
3-byte sequences `EE BF BF`, `EE BF BE`, `EE BE 80` (the 3-byte UTF-8
forms of U+EFFF, U+EFFE, U+EF80), not `EF BE BF`, `EF BE BE`, `EF BE 80`
as the claim states. -/
theorem c7_concrete_bytes_counterexample :
    xtf8_encode [0xFF, 0xFE, 0x80] 0 =
      .ok (9, [0xEE, 0xBF, 0xBF, 0xEE, 0xBF, 0xBE, 0xEE, 0xBE, 0x80]) ∧
    ([0xEE, 0xBF, 0xBF, 0xEE, 0xBF, 0xBE, 0xEE, 0xBE, 0x80] : List Nat) ≠
      [0xEF, 0xBE, 0xBF, 0xEF, 0xBE, 0xBE, 0xEF, 0xBE, 0x80] := by decide

/-- Claim C7, amended: encoding `FF FE 80` (under either policy)
produces `EE BF BF`, `EE BF BE`, `EE BE 80` — each byte mapped via
`0xEF80 | (byte & 0x7F)` and UTF-8-encoded — and decoding that output
under either policy reproduces the original three bytes. -/
theorem c7_concrete_bytes_amended :
    xtf8_encode [0xFF, 0xFE, 0x80] 0 =
      .ok (9, pua3 0xFF ++ pua3 0xFE ++ pua3 0x80) ∧
    xtf8_encode [0xFF, 0xFE, 0x80] 1 =
      .ok (9, pua3 0xFF ++ pua3 0xFE ++ pua3 0x80) ∧
    pua3 0xFF ++ pua3 0xFE ++ pua3 0x80 =
      [0xEE, 0xBF, 0xBF, 0xEE, 0xBF, 0xBE, 0xEE, 0xBE, 0x80] ∧
    xtf8_decode [0xEE, 0xBF, 0xBF, 0xEE, 0xBF, 0xBE, 0xEE, 0xBE, 0x80] 0 =
      .ok (3, [0xFF, 0xFE, 0x80]) ∧
    xtf8_decode [0xEE, 0xBF, 0xBF, 0xEE, 0xBF, 0xBE, 0xEE, 0xBE, 0x80] 1 =
      .ok (3, [0xFF, 0xFE, 0x80]) := by decide

/-- Claim C8: `json_unescape (json_escape B)` fails for `B = [0x00]`:
the escaper produces the complete escape `\u0000`, but the unescaper's
bounds check `s + 5 >= end` demands a byte after the four hex digits and
reports the complete trailing escape as truncated, returning the error
sentinel instead of `[0x00]`.  The claim's concrete pair (escaping
`5C 22` and unescaping the result) does hold. -/
theorem c8_json_roundtrip_bug_eval :
    json_escape [0x00] = [0x5C, 0x75, 0x30, 0x30, 0x30, 0x30] ∧
    json_unescape false (json_escape [0x00]) = none ∧
    json_unescape false [0x5C, 0x75, 0x30, 0x30, 0x30, 0x30, 0x41] = some [0x00, 0x41] ∧
    json_escape [0x5C, 0x22] = [0x5C, 0x5C, 0x5C, 0x22] ∧
    json_unescape false [0x5C, 0x5C, 0x5C, 0x22] = some [0x5C, 0x22] := by decide

/-- Claim C9: a truncated multi-byte sequence at the end of the input
produces no output: encoding the single byte `0xC2` returns length 0
under either policy, so the distinct inputs `[0xC2]` and `[]` encode to
the same output. -/
theorem c9_truncated_tail_dropped :
    xtf8_encode [0xC2] 0 = .ok (0, []) ∧
    xtf8_encode [0xC2] 1 = .ok (0, []) ∧
    xtf8_encode [] 0 = .ok (0, []) ∧ ([0xC2] : List Nat) ≠ [] := by decide

/-- Claim C10: decode output can be strictly longer than its input:
decoding the single byte `0xFF` under REPLACE requires 3 output bytes
(the replacement sequence EF BF BD), more than the input length 1. -/
theorem c10_decode_longer_than_input :
    xtf8_decode [0xFF] 0 = .ok (3, [0xEF, 0xBF, 0xBD]) ∧
    ([0xFF] : List Nat).length < 3 := by decide
